import Mathlib

set_option maxRecDepth 40000

/-!
Shallow embedding of `src/res/compiler.py`, an assembler for the ESET-VM2
virtual machine.  The Python program is a three-stage pipeline
(Lexer → Parser → Assembler) plus a driver (`main`).  Pure string and
integer manipulation is translated into executable Lean functions on
`List Char` / `Nat` / `Int`; Python exceptions become explicit error
values (`PErr` for the parse phase, `AErr` for the assemble phase),
distinguishing the exceptions the program itself raises and catches
(`Parser.Error`, `Assembler.Error`) from uncaught built-in exceptions
(`IndexError`, `ValueError`, `TypeError`, `KeyError`, `struct.error`),
which terminate the process without the driver's error reporting.
-/

namespace EsetVM2

/-- Whitespace characters recognised by Python `str.split()` on the inputs
reachable here (space, tab, carriage return, newline). -/
def isWs (c : Char) : Bool := c = ' ' || c = '\t' || c = '\r' || c = '\n'

/-- Drop leading whitespace (the greedy regex span behind `\s*`). -/
def dropWs (l : List Char) : List Char := l.dropWhile isWs

/-- Strip whitespace from both ends of a token. -/
def trimWs (l : List Char) : List Char :=
  ((l.dropWhile isWs).reverse.dropWhile isWs).reverse

/-- Helper for `splitWs`: `cur` is the reversed current token. -/
def splitWsAux : List Char → List Char → List (List Char)
  | cur, [] => if cur = [] then [] else [cur.reverse]
  | cur, c :: rest =>
    if isWs c then
      if cur = [] then splitWsAux [] rest else cur.reverse :: splitWsAux [] rest
    else splitWsAux (c :: cur) rest

/-- Python `str.split()`: split on whitespace runs, dropping empty tokens. -/
def splitWs (l : List Char) : List (List Char) := splitWsAux [] l

/-- Helper for `splitOnChar`: `cur` is the reversed current piece. -/
def splitOnCharAux (sep : Char) : List Char → List Char → List (List Char)
  | cur, [] => [cur.reverse]
  | cur, c :: rest =>
    if c = sep then cur.reverse :: splitOnCharAux sep [] rest
    else splitOnCharAux sep (c :: cur) rest

/-- Split a character list on every occurrence of `sep` (pieces kept verbatim). -/
def splitOnChar (sep : Char) (l : List Char) : List (List Char) :=
  splitOnCharAux sep [] l

/-- Value of one hexadecimal digit character. -/
def hexVal (c : Char) : Option Nat :=
  if '0' ≤ c ∧ c ≤ '9' then some (c.toNat - 48)
  else if 'a' ≤ c ∧ c ≤ 'f' then some (c.toNat - 87)
  else if 'A' ≤ c ∧ c ≤ 'F' then some (c.toNat - 55)
  else none

/-- Value of one digit character in the given base (base ≤ 16). -/
def digitValB (base : Nat) (c : Char) : Option Nat :=
  match hexVal c with
  | some v => if v < base then some v else none
  | none => none

/-- Accumulating evaluation of a digit string in the given base. -/
def digitsValGo (base : Nat) (acc : Nat) : List Char → Option Nat
  | [] => some acc
  | c :: rest =>
    match digitValB base c with
    | some v => digitsValGo base (acc * base + v) rest
    | none => none

/-- Value of a non-empty digit string in the given base (`none` on any
non-digit or on the empty string, like Python's `int`). -/
def digitsVal (base : Nat) (l : List Char) : Option Nat :=
  if l = [] then none else digitsValGo base 0 l

/-- Read an optional leading sign; returns (negative?, rest). -/
def readSign : List Char → (Bool × List Char)
  | '-' :: rest => (true, rest)
  | '+' :: rest => (false, rest)
  | l => (false, l)

/-- Python `int(s)` (base 10), as applied to the `.dataSize` operand:
optional sign then decimal digits.  `none` models `ValueError`. -/
def pyInt10 (l : List Char) : Option Int :=
  let s := readSign l
  match digitsVal 10 s.2 with
  | some n => some (if s.1 then -(n : Int) else (n : Int))
  | none => none

/-- Python `int(s, 16)`, as applied to data bytes: optional sign, optional
`0x`/`0X` prefix, then hex digits.  `none` models `ValueError`. -/
def pyInt16 (l : List Char) : Option Int :=
  let s := readSign l
  let rest :=
    match s.2 with
    | '0' :: c :: rest2 => if c = 'x' ∨ c = 'X' then rest2 else '0' :: c :: rest2
    | r => r
  match digitsVal 16 rest with
  | some n => some (if s.1 then -(n : Int) else (n : Int))
  | none => none

/-- Python `int(s, 0)`, as applied to constants: optional sign, base chosen
by `0x`/`0o`/`0b` prefix, decimal otherwise (where a leading zero is only
allowed on an all-zero literal).  `none` models `ValueError`. -/
def pyIntBase0 (l : List Char) : Option Int :=
  let s := readSign l
  let mag : Option Nat :=
    match s.2 with
    | '0' :: c :: rest2 =>
      if c = 'x' ∨ c = 'X' then digitsVal 16 rest2
      else if c = 'o' ∨ c = 'O' then digitsVal 8 rest2
      else if c = 'b' ∨ c = 'B' then digitsVal 2 rest2
      else if ('0' :: c :: rest2).all (fun d => d = '0') then some 0 else none
    | ['0'] => some 0
    | r => digitsVal 10 r
  match mag with
  | some n => some (if s.1 then -(n : Int) else (n : Int))
  | none => none

/-- Binary digits of `n`, least significant first, with explicit fuel so the
definition is structurally recursive (empty for `n = 0`). -/
def lsbDigitsF : Nat → Nat → List Char
  | 0, _ => []
  | _ + 1, 0 => []
  | f + 1, n + 1 =>
    (if (n + 1) % 2 = 1 then '1' else '0') :: lsbDigitsF f ((n + 1) / 2)

/-- Binary digits of `n`, least significant first (fuel instantiated). -/
def lsbDigits (n : Nat) : List Char := lsbDigitsF n n

/-- Python `"{0:b}".format(n)` for `n ≥ 0`: minimal binary, MSB first. -/
def natBinStr (n : Nat) : List Char :=
  if n = 0 then ['0'] else (lsbDigits n).reverse

/-- Python `"{0:0Nb}".format(n)` for `n ≥ 0`: binary zero-padded to width `w`
(never truncated below the minimal length). -/
def natBinPad (w n : Nat) : List Char :=
  List.replicate (w - (natBinStr n).length) '0' ++ natBinStr n

/-- Python `"{0:0Nb}".format(v)` for any integer: on negatives the sign
character is part of the field and the magnitude is padded to `w - 1`.
There is no two's-complement conversion. -/
def pyFormatBin (w : Nat) (v : Int) : List Char :=
  if 0 ≤ v then natBinPad w v.toNat else '-' :: natBinPad (w - 1) (-v).toNat

/-- Reference bit string: the low `w` bits of `n`, least significant first. -/
def lsbBits : Nat → Nat → List Char
  | 0, _ => []
  | w + 1, n => (if n % 2 = 1 then '1' else '0') :: lsbBits w (n / 2)

/-- Numeric value of a bit character (non-bit characters count as 0). -/
def bitVal (c : Char) : Nat := if c = '1' then 1 else 0

/-- Value of a bit string read least-significant-bit first. -/
def decodeBits : List Char → Nat
  | [] => 0
  | c :: rest => bitVal c + 2 * decodeBits rest

/-- The 32-bit field of the bit buffer starting at bit `pos`, decoded in the
order the bits were emitted (LSB first). -/
def readField (bc : List Char) (pos : Nat) : Nat :=
  decodeBits ((bc.drop pos).take 32)

/-- Accumulating value of a bit string read most-significant-bit first. -/
def binValGo (acc : Nat) : List Char → Nat
  | [] => acc
  | c :: rest => binValGo (2 * acc + bitVal c) rest

/-- Value of a bit string read most-significant-bit first (the order
`int("".join(bits), 2)` uses when packing output bytes). -/
def binVal (l : List Char) : Nat := binValGo 0 l

/-- Errors escaping the parse phase.  `parseError` is `Parser.Error`, the
exception class `main` catches; `exn` is an uncaught Python built-in
exception (named), which terminates the process without diagnostics. -/
inductive PErr where
  | parseError (msg : String)
  | exn (name : String)
deriving DecidableEq

/-- Errors escaping the assemble phase.  `assembleError` is
`Assembler.Error`, the exception class `main` catches; `exn` is an uncaught
Python built-in exception (named). -/
inductive AErr where
  | assembleError (msg : String)
  | exn (name : String)
deriving DecidableEq

/-- An instruction specification: opcode bits and argument-kind letters,
as in the `Opcode` class of the source. -/
structure Opcode where
  code : List Char
  args : List Char
deriving DecidableEq

/-- The static instruction table `Assembler.Opcodes` (dict lookup:
`none` models a missing key). -/
def lookupOpcode (name : List Char) : Option Opcode :=
  if name = "mov".toList then some ⟨"000".toList, "RR".toList⟩
  else if name = "loadConst".toList then some ⟨"001".toList, "CR".toList⟩
  else if name = "add".toList then some ⟨"010001".toList, "RRR".toList⟩
  else if name = "sub".toList then some ⟨"010010".toList, "RRR".toList⟩
  else if name = "div".toList then some ⟨"010011".toList, "RRR".toList⟩
  else if name = "mod".toList then some ⟨"010100".toList, "RRR".toList⟩
  else if name = "mul".toList then some ⟨"010101".toList, "RRR".toList⟩
  else if name = "compare".toList then some ⟨"01100".toList, "RRR".toList⟩
  else if name = "jump".toList then some ⟨"01101".toList, "L".toList⟩
  else if name = "jumpEqual".toList then some ⟨"01110".toList, "LRR".toList⟩
  else if name = "read".toList then some ⟨"10000".toList, "RRRR".toList⟩
  else if name = "write".toList then some ⟨"10001".toList, "RRR".toList⟩
  else if name = "consoleRead".toList then some ⟨"10010".toList, "R".toList⟩
  else if name = "consoleWrite".toList then some ⟨"10011".toList, "R".toList⟩
  else if name = "createThread".toList then some ⟨"10100".toList, "LR".toList⟩
  else if name = "joinThread".toList then some ⟨"10101".toList, "R".toList⟩
  else if name = "hlt".toList then some ⟨"10110".toList, "".toList⟩
  else if name = "sleep".toList then some ⟨"10111".toList, "R".toList⟩
  else if name = "call".toList then some ⟨"1100".toList, "L".toList⟩
  else if name = "ret".toList then some ⟨"1101".toList, "".toList⟩
  else if name = "lock".toList then some ⟨"1110".toList, "R".toList⟩
  else if name = "unlock".toList then some ⟨"1111".toList, "R".toList⟩
  else none

/-- The static width table `Assembler.DataAccessTypes`. -/
def widthBits (w : List Char) : Option (List Char) :=
  if w = "byte".toList then some "00".toList
  else if w = "word".toList then some "01".toList
  else if w = "dword".toList then some "10".toList
  else if w = "qword".toList then some "11".toList
  else none

/-- A parsed instruction argument.  The source stores either the pair
`[register_id, reference_width_or_None]` (for `R`) or the raw argument
string (for `C` and `L`). -/
inductive Arg where
  | reg (id : Nat) (ref : Option (List Char))
  | str (s : List Char)
deriving DecidableEq

/-- A parsed instruction: mnemonic and argument values. -/
abbrev Instruction := List Char × List Arg

/-- The parser's section state (`Parser.ParseMode`). -/
inductive ParseMode where
  | data
  | code
deriving DecidableEq

/-- The parser's accumulated output (the public fields of `Parser`).
Label maps are association lists in insertion order; `data_section`
holds Python integers, which the parser does not constrain from below. -/
structure PState where
  parse_mode : Option ParseMode
  data_size : Option Int
  data_labels : List (List Char × Nat)
  data_section : List Int
  code_labels : List (List Char × Nat)
  code_section : List Instruction
deriving DecidableEq

/-- The initial parser state set up at the top of `Parser.analyse`. -/
def initPState : PState :=
  ⟨none, none, [], [], [], []⟩

/-- Association-list lookup (Python dict `get` / `in`). -/
def lookupA : List (List Char × Nat) → List Char → Option Nat
  | [], _ => none
  | (k, v) :: rest, key => if k = key then some v else lookupA rest key

/-- One source line after lexing: `Lexer.analyse` strips the comment
(`line.split("#", 2)[0]`), whitespace-tokenizes, and drops empty lines. -/
def tokenize (line : String) : List (List Char) :=
  splitWs (line.toList.takeWhile (fun c => c ≠ '#'))

/-- The lexer over a whole file: 1-based line numbers paired with the
token lists of non-empty lines. -/
def lexLines (lines : List String) : List (Nat × List (List Char)) :=
  go 1 lines
where
  go : Nat → List String → List (Nat × List (List Char))
  | _, [] => []
  | n, line :: rest =>
    let toks := tokenize line
    if toks = [] then go (n + 1) rest else (n, toks) :: go (n + 1) rest

/-- `Parser.__parse_section`: directives.  A missing `.dataSize` operand
raises `IndexError` (`tokens[1]`), a non-decimal one `ValueError`
(`int(tokens[1])`); neither is a `Parser.Error`. -/
def parseSection (st : PState) (tokens : List (List Char)) : Except PErr PState :=
  match tokens with
  | [] => .error (.exn "IndexError")
  | t0 :: rest =>
    if t0 = ".dataSize".toList then
      if st.data_size.isSome then .error (.parseError "Double data size spotted")
      else
        match rest with
        | [] => .error (.exn "IndexError")
        | t1 :: _ =>
          match pyInt10 t1 with
          | none => .error (.exn "ValueError")
          | some n => .ok { st with data_size := some n }
    else if t0 = ".code".toList then .ok { st with parse_mode := some .code }
    else if t0 = ".data".toList then .ok { st with parse_mode := some .data }
    else .error (.parseError "Bad token")

/-- `Parser.__parse_label`: record the current section length under the
label name (`tokens[0][:-1]`), rejecting duplicates and labels outside
any section. -/
def parseLabel (st : PState) (tokens : List (List Char)) : Except PErr PState :=
  match tokens with
  | [] => .error (.exn "IndexError")
  | t0 :: _ =>
    let label := t0.dropLast
    match st.parse_mode with
    | some .code =>
      if (lookupA st.code_labels label).isSome then
        .error (.parseError "Duplicated label")
      else .ok { st with code_labels := st.code_labels ++ [(label, st.code_section.length)] }
    | some .data =>
      if (lookupA st.data_labels label).isSome then
        .error (.parseError "Duplicated label")
      else .ok { st with data_labels := st.data_labels ++ [(label, st.data_section.length)] }
    | none => .error (.parseError "Bad label")

/-- `Parser.__translate_argument_tokens`: join the argument tokens with
single spaces and split on commas.  `re.split(r"\s*,\s*", s)` consumes the
whitespace around each comma; on the reachable strings (no leading or
trailing whitespace, since they are joins of non-empty tokens) that is
splitting on `,` and trimming each piece. -/
def translateArgumentTokens (tokens : List (List Char)) : List (List Char) :=
  if tokens = [] then []
  else (splitOnChar ',' (List.intercalate [' '] tokens)).map trimWs

/-- The register-by-value pattern `r(?P<id>[0-9]+)` matched at the start of
the string (`re.match`; trailing characters are ignored). -/
def matchVal (s : List Char) : Option Nat :=
  match s with
  | 'r' :: rest =>
    let ds := rest.takeWhile (fun c => '0' ≤ c ∧ c ≤ '9')
    digitsValGo 10 0 ds |>.bind (fun n => if ds = [] then none else some n)
  | _ => none

/-- Try the four width keywords, in table order, as a prefix of `s`;
returns the keyword and the rest.  No keyword is a prefix of another, so
this is the regex alternation `byte|word|dword|qword`. -/
def matchWidth (s : List Char) : Option (List Char × List Char) :=
  if "byte".toList.isPrefixOf s then some ("byte".toList, s.drop 4)
  else if "word".toList.isPrefixOf s then some ("word".toList, s.drop 4)
  else if "dword".toList.isPrefixOf s then some ("dword".toList, s.drop 5)
  else if "qword".toList.isPrefixOf s then some ("qword".toList, s.drop 5)
  else none

/-- The register-by-reference pattern
`(byte|word|dword|qword)\s*\[\s*r[0-9]+\s*\]` matched at the start of the
string; returns (register id, width keyword). -/
def matchRef (s : List Char) : Option (Nat × List Char) :=
  match matchWidth s with
  | none => none
  | some (w, rest) =>
    match dropWs rest with
    | '[' :: rest2 =>
      match dropWs rest2 with
      | 'r' :: rest3 =>
        let ds := rest3.takeWhile (fun c => '0' ≤ c ∧ c ≤ '9')
        if ds = [] then none
        else
          match dropWs (rest3.drop ds.length) with
          | ']' :: _ =>
            (digitsValGo 10 0 ds).map (fun n => (n, w))
          | _ => none
      | _ => none
    | _ => none

/-- The `R`-argument branch of `Parser.__parse_code`: value pattern first,
then reference pattern, then the two `Bad register` errors. -/
def parseRegisterArg (s : List Char) : Except PErr Arg :=
  match matchVal s with
  | some id =>
    if id > 16 then .error (.parseError "Bad register argument type (too big)")
    else .ok (.reg id none)
  | none =>
    match matchRef s with
    | some (id, w) =>
      if id > 16 then .error (.parseError "Bad register argument type (too big)")
      else .ok (.reg id (some w))
    | none =>
      .error (.parseError ("Bad register argument type [" ++ String.mk s ++ "]"))

/-- The argument loop of `Parser.__parse_code` over
`zip(opcode.args, argument_data)`. -/
def parseArgsLoop : List (Char × List Char) → Except PErr (List Arg)
  | [] => .ok []
  | (t, a) :: rest =>
    let one : Except PErr Arg :=
      if t = 'R' then parseRegisterArg a
      else if t = 'C' then .ok (.str a)
      else if t = 'L' then .ok (.str a)
      else .error (.exn "NotImplementedError")
    match one with
    | .error e => .error e
    | .ok arg =>
      match parseArgsLoop rest with
      | .error e => .error e
      | .ok args => .ok (arg :: args)

/-- `Parser.__parse_code`: opcode lookup, argument split, count check,
argument decoding, and appending the instruction. -/
def parseCode (st : PState) (tokens : List (List Char)) : Except PErr PState :=
  match tokens with
  | [] => .error (.exn "IndexError")
  | name :: rest =>
    match lookupOpcode name with
    | none => .error (.parseError ("Bad opcode [" ++ String.mk name ++ "]"))
    | some op =>
      let argStrings := translateArgumentTokens rest
      if argStrings.length ≠ op.args.length then
        .error (.parseError "Bad opcode argument count")
      else
        match parseArgsLoop (op.args.zip argStrings) with
        | .error e => .error e
        | .ok args => .ok { st with code_section := st.code_section ++ [(name, args)] }

/-- `Parser.__parse_data`: each token is read with `int(entry, 16)`
(`ValueError` if not hex) and rejected only when greater than 255. -/
def parseData (st : PState) : List (List Char) → Except PErr PState
  | [] => .ok st
  | entry :: rest =>
    match pyInt16 entry with
    | none => .error (.exn "ValueError")
    | some v =>
      if v > 255 then .error (.parseError "Bad value in line")
      else parseData { st with data_section := st.data_section ++ [v] } rest

/-- Dispatch for one lexed line, as in the loop body of `Parser.analyse`:
directive / label definition / section content. -/
def parseLine (st : PState) (tokens : List (List Char)) : Except PErr PState :=
  match tokens with
  | [] => .error (.exn "IndexError")
  | t0 :: _ =>
    if t0.head? = some '.' then parseSection st tokens
    else if tokens.length = 1 ∧ t0.getLast? = some ':' then parseLabel st tokens
    else
      match st.parse_mode with
      | some .code => parseCode st tokens
      | some .data => parseData st tokens
      | none => .error (.parseError "Bad token")

/-- The loop of `Parser.analyse` over the lexed lines; an error carries the
line number it was raised on (`last_parsed_line_no`). -/
def analyseLoop (st : PState) : List (Nat × List (List Char)) → Except (Nat × PErr) PState
  | [] => .ok st
  | (n, toks) :: rest =>
    match parseLine st toks with
    | .error e => .error (n, e)
    | .ok st' => analyseLoop st' rest

/-- `Parser.analyse` on a whole source file (given as its lines). -/
def analyse (lines : List String) : Except (Nat × PErr) PState :=
  analyseLoop initPState (lexLines lines)

/-- The assembler's mutable state during `Assembler.build`: the bit buffer
(`__bytecode`, a list of characters), the per-instruction bit offsets
(`__offsets_list`) and the pending forward patches (`__offset_patches`,
insertion-ordered, keyed by bit position). -/
structure AsmState where
  bytecode : List Char
  offsets : List Nat
  patches : List (Nat × Nat)
deriving DecidableEq

/-- `Assembler.__assemble_register`: 5 characters for a value register
(`"0"` + reversed `"{0:04b}"`), `1 + 2 + 4` characters for a reference
register (`"1"` + reversed width code + reversed id); an unknown width
keyword would raise `KeyError`.  Note `"{0:04b}"` pads to a minimum width
of 4 and never truncates. -/
def assembleRegister : Nat × Option (List Char) → Except AErr (List Char)
  | (id, some w) =>
    match widthBits w with
    | none => .error (.exn "KeyError")
    | some wb => .ok ('1' :: (wb.reverse ++ (natBinPad 4 id).reverse))
  | (id, none) => .ok ('0' :: (natBinPad 4 id).reverse)

/-- `Assembler.__assemble_constant`: `"{0:064b}".format(int(s, 0))[::-1]`.
An unparsable literal raises `ValueError`; a negative value keeps its sign
character (which ends up inside the bit buffer after the reversal). -/
def assembleConstant (s : List Char) : Except AErr (List Char) :=
  match pyIntBase0 s with
  | none => .error (.exn "ValueError")
  | some v => .ok (pyFormatBin 64 v).reverse

/-- `Assembler.__assemble_label`: resolve the label to an instruction
index; if that instruction was already emitted, emit its recorded value
from `__offsets_list`, otherwise emit 32 zero bits and record a patch at
the current bit position.  An unknown label raises `Assembler.Error`. -/
def assembleLabel (codeLabels : List (List Char × Nat)) (st : AsmState)
    (s : List Char) : Except AErr AsmState :=
  match lookupA codeLabels s with
  | none => .error (.assembleError ("Undefined code label " ++ String.mk s))
  | some off =>
    if h : off < st.offsets.length then
      let address := st.offsets.get ⟨off, h⟩
      .ok { st with bytecode := st.bytecode ++ (natBinPad 32 address).reverse }
    else
      .ok { st with
        bytecode := st.bytecode ++ (natBinPad 32 0).reverse,
        patches := st.patches ++ [(st.bytecode.length, off)] }

/-- One argument of the emission loop in `Assembler.build`, dispatched on
the argument-kind letter (letters other than `R`/`C`/`L` are skipped). -/
def assembleArg (codeLabels : List (List Char × Nat)) (st : AsmState) :
    Char × Arg → Except AErr AsmState
  | (t, a) =>
    if t = 'R' then
      match a with
      | .reg id r =>
        match assembleRegister (id, r) with
        | .error e => .error e
        | .ok bits => .ok { st with bytecode := st.bytecode ++ bits }
      | .str _ => .error (.exn "TypeError")
    else if t = 'C' then
      match a with
      | .str s =>
        match assembleConstant s with
        | .error e => .error e
        | .ok bits => .ok { st with bytecode := st.bytecode ++ bits }
      | .reg _ _ => .error (.exn "TypeError")
    else if t = 'L' then
      match a with
      | .str s => assembleLabel codeLabels st s
      | .reg _ _ => .error (.exn "TypeError")
    else .ok st

/-- The inner loop of `Assembler.build` over
`zip(opcode.args, instruction[1:])`. -/
def assembleArgsLoop (codeLabels : List (List Char × Nat)) :
    AsmState → List (Char × Arg) → Except AErr AsmState
  | st, [] => .ok st
  | st, ta :: rest =>
    match assembleArg codeLabels st ta with
    | .error e => .error e
    | .ok st' => assembleArgsLoop codeLabels st' rest

/-- One instruction of `Assembler.build`: record the current bit length in
`__offsets_list`, emit the opcode bits verbatim, then the arguments.  The
dict indexing `Assembler.Opcodes[instruction[0]]` raises `KeyError` on a
missing mnemonic. -/
def assembleInstruction (codeLabels : List (List Char × Nat)) (st : AsmState)
    (ins : Instruction) : Except AErr AsmState :=
  match lookupOpcode ins.1 with
  | none => .error (.exn "KeyError")
  | some op =>
    let st' : AsmState :=
      { st with
        offsets := st.offsets ++ [st.bytecode.length],
        bytecode := st.bytecode ++ op.code }
    assembleArgsLoop codeLabels st' (op.args.zip ins.2)

/-- The instruction loop of `Assembler.build`. -/
def assembleLoopGo (codeLabels : List (List Char × Nat)) :
    AsmState → List Instruction → Except AErr AsmState
  | st, [] => .ok st
  | st, ins :: rest =>
    match assembleInstruction codeLabels st ins with
    | .error e => .error e
    | .ok st' => assembleLoopGo codeLabels st' rest

/-- The emission pass of `Assembler.build` starting from fresh buffers. -/
def assembleLoop (p : PState) : Except AErr AsmState :=
  assembleLoopGo p.code_labels ⟨[], [], []⟩ p.code_section

/-- Python `bytecode[i] = bit`: item assignment raises `IndexError` out of
range. -/
def pyListSet (bc : List Char) (i : Nat) (c : Char) : Except AErr (List Char) :=
  if i < bc.length then .ok (bc.set i c) else .error (.exn "IndexError")

/-- The inner loop of `Assembler.__apply_patches`: overwrite the bits of
`patched` starting at `pos`. -/
def pyOverwrite (bc : List Char) (pos : Nat) : List Char → Except AErr (List Char)
  | [] => .ok bc
  | b :: rest =>
    match pyListSet bc pos b with
    | .error e => .error e
    | .ok bc' => pyOverwrite bc' (pos + 1) rest

/-- `Assembler.__apply_patches`: for each pending patch, re-encode
`__offsets_list[offset]` and overwrite in place.  The list indexing raises
`IndexError` when the target instruction index is out of range. -/
def applyPatches (offsets : List Nat) : List (Nat × Nat) → List Char →
    Except AErr (List Char)
  | [], bc => .ok bc
  | (pos, off) :: rest, bc =>
    match offsets.get? off with
    | none => .error (.exn "IndexError")
    | some a =>
      match pyOverwrite bc pos ((natBinPad 32 a).reverse) with
      | .error e => .error e
      | .ok bc' => applyPatches offsets rest bc'

/-- The data-size reconciliation of `Assembler.build`: widen `data_size`
and warn when the data section outgrew it.  When `.dataSize` was never
declared `data_size` is `None` and the Python 3 comparison
`len(...) > None` raises `TypeError` (on Python 2 the subsequent `"%d"`
formatting of `None` raises `TypeError` instead). -/
def reconcile (ds : Option Int) (dataLen : Nat) : Except AErr (Int × List String) :=
  match ds with
  | none => .error (.exn "TypeError")
  | some d =>
    if (dataLen : Int) > d then
      .ok ((dataLen : Int),
        ["Warning: bad .dataSize, was " ++ toString d ++ " but used " ++
          toString dataLen ++ ", expanding"])
    else .ok (d, [])

/-- The byte-alignment step of `Assembler.build`: append zero characters
until the buffer length is a multiple of 8. -/
def padBits (bc : List Char) : List Char :=
  if bc.length % 8 = 0 then bc else bc ++ List.replicate (8 - bc.length % 8) '0'

/-- `struct.pack("I", v)`: four little-endian bytes; out of `0 ≤ v < 2^32`
raises `struct.error`. -/
def le32 (n : Nat) : List Nat :=
  [n % 256, n / 256 % 256, n / 65536 % 256, n / 16777216 % 256]

/-- `struct.pack("I", v)` as used for the three header words. -/
def packU32 (v : Int) : Except AErr (List Nat) :=
  if 0 ≤ v ∧ v < 4294967296 then .ok (le32 v.toNat) else .error (.exn "struct.error")

/-- `struct.pack("B", v)`: one byte; out of `0 ≤ v ≤ 255` raises
`struct.error`. -/
def packU8 (v : Int) : Except AErr Nat :=
  if 0 ≤ v ∧ v ≤ 255 then .ok v.toNat else .error (.exn "struct.error")

/-- The slicing loop `for i in range(0, len(bc), 8): bc[i:i+8]`, written
with explicit fuel (any fuel at least the length gives the slices). -/
def chunksGo : Nat → List Char → List (List Char)
  | _, [] => []
  | 0, _ => []
  | f + 1, l => l.take 8 :: chunksGo f (l.drop 8)

/-- Successive 8-character slices of the bit buffer. -/
def chunks8 (l : List Char) : List (List Char) := chunksGo l.length l

/-- Python `int("".join(bits), 2)` on one byte slice: all characters must
be binary digits after an optional sign (a stray `-` from a negative
constant either produces a negative byte value or a `ValueError`). -/
def pyIntOfBits (l : List Char) : Except AErr Int :=
  match l with
  | c :: rest =>
    if c = '-' then
      if rest ≠ [] ∧ rest.all (fun d => d = '0' || d = '1') then .ok (-(binVal rest : Int))
      else .error (.exn "ValueError")
    else
      if (c :: rest).all (fun d => d = '0' || d = '1') then .ok ((binVal (c :: rest) : Int))
      else .error (.exn "ValueError")
  | [] => .error (.exn "ValueError")

/-- The code-byte loop of the file write: each slice through
`int("".join(...), 2)` then `struct.pack("B", ...)`. -/
def packCode : List (List Char) → Except AErr (List Nat)
  | [] => .ok []
  | ch :: rest =>
    match pyIntOfBits ch with
    | .error e => .error e
    | .ok v =>
      match packU8 v with
      | .error e => .error e
      | .ok b =>
        match packCode rest with
        | .error e => .error e
        | .ok bs => .ok (b :: bs)

/-- The data-byte loop of the file write: `struct.pack("B", b)` for each
stored data value. -/
def packData : List Int → Except AErr (List Nat)
  | [] => .ok []
  | v :: rest =>
    match packU8 v with
    | .error e => .error e
    | .ok b =>
      match packData rest with
      | .error e => .error e
      | .ok bs => .ok (b :: bs)

/-- The 8 ASCII bytes of the magic string `ESET-VM2`. -/
def magic : List Nat := [69, 83, 69, 84, 45, 86, 77, 50]

/-- The file-write section of `Assembler.build`: magic, the three header
words, the packed code bytes and the raw data bytes, in order; any
`struct.error`/`ValueError` aborts the write (leaving a partial file). -/
def writeImage (bc : List Char) (ds : Int) (data : List Int) :
    Except AErr (List Nat) :=
  Except.bind (packU32 ((bc.length / 8 : Nat) : Int)) (fun h1 =>
    Except.bind (packU32 ds) (fun h2 =>
      Except.bind (packU32 ((data.length : Nat) : Int)) (fun h3 =>
        Except.bind (packCode (chunks8 bc)) (fun codeBytes =>
          Except.bind (packData data) (fun dataBytes =>
            Except.ok (magic ++ h1 ++ h2 ++ h3 ++ codeBytes ++ dataBytes))))))

/-- `Assembler.build` end to end: emission, patching, data-size
reconciliation (collecting the warning line), byte alignment and file
write.  The result is the output file's bytes plus the warning lines
printed on the way. -/
def buildFile (p : PState) : Except AErr (List Nat × List String) :=
  Except.bind (assembleLoop p) (fun s =>
    Except.bind (applyPatches s.offsets s.patches s.bytecode) (fun bcF =>
      Except.bind (reconcile p.data_size p.data_section.length) (fun dw =>
        Except.bind (writeImage (padBits bcF) dw.1 p.data_section) (fun file =>
          Except.ok (file, dw.2)))))

/-- Observable outcome of one run of the program.  `finished` carries the
exit code, the standard-output lines and the output file when one was
written in full (`none` when the output path was never opened);
`crashed` is an uncaught Python exception (traceback, nonzero exit,
neither driver message printed). -/
inductive RunOutcome where
  | finished (exitCode : Nat) (stdout : List String) (outputFile : Option (List Nat))
  | crashed (exn : String)
deriving DecidableEq

/-- The driver `main`: parse errors exit 2 with a line-numbered message
before the output path is touched, assembler errors exit 3, success exits
0 after `All ok`.  Uncaught exceptions crash. -/
def mainRun (lines : List String) : RunOutcome :=
  match analyse lines with
  | .error (n, .parseError msg) =>
    .finished 2 ["Parser error on line " ++ toString n ++ ": " ++ msg] none
  | .error (_, .exn e) => .crashed e
  | .ok st =>
    match buildFile st with
    | .error (.assembleError msg) => .finished 3 ["Assembler error: " ++ msg] none
    | .error (.exn e) => .crashed e
    | .ok (file, warns) => .finished 0 (warns ++ ["All ok"]) (some file)

/-! Facts about the binary-formatting helpers. -/

theorem lsbDigitsF_congr : ∀ f g n : Nat, n ≤ f → n ≤ g → lsbDigitsF f n = lsbDigitsF g n := by
  intro f
  induction f with
  | zero =>
    intro g n hf _
    interval_cases n
    cases g <;> rfl
  | succ f ih =>
    intro g n hf hg
    match n, g with
    | 0, 0 => rfl
    | 0, g + 1 => rfl
    | n + 1, g + 1 =>
      show _ :: lsbDigitsF f ((n + 1) / 2) = _ :: lsbDigitsF g ((n + 1) / 2)
      rw [ih g ((n + 1) / 2) (by omega) (by omega)]

theorem lsbDigits_pos (n : Nat) (h : 0 < n) :
    lsbDigits n = (if n % 2 = 1 then '1' else '0') :: lsbDigits (n / 2) := by
  match n, h with
  | n + 1, _ =>
    show lsbDigitsF (n + 1) (n + 1) = _
    rw [show lsbDigitsF (n + 1) (n + 1) =
        (if (n + 1) % 2 = 1 then '1' else '0') :: lsbDigitsF n ((n + 1) / 2) from rfl]
    rw [lsbDigitsF_congr n ((n + 1) / 2) ((n + 1) / 2) (by omega) (by omega)]
    rfl

theorem lsbBits_zero (w : Nat) : lsbBits w 0 = List.replicate w '0' := by
  induction w with
  | zero => rfl
  | succ w ih => simp [lsbBits, ih, List.replicate_succ]

theorem lsbBits_length (w n : Nat) : (lsbBits w n).length = w := by
  induction w generalizing n with
  | zero => rfl
  | succ w ih => simp [lsbBits, ih]

theorem lsbDigits_append_replicate :
    ∀ n k : Nat, lsbDigits n ++ List.replicate k '0' = lsbBits ((lsbDigits n).length + k) n := by
  intro n
  induction n using Nat.strong_induction_on with
  | _ n ih =>
    intro k
    rcases Nat.eq_zero_or_pos n with h0 | hpos
    · subst h0
      simp [lsbDigits, lsbDigitsF, lsbBits_zero]
    · rw [lsbDigits_pos n hpos]
      have hlt : n / 2 < n := Nat.div_lt_self hpos (by omega)
      have := ih (n / 2) hlt k
      simp only [List.cons_append, List.length_cons]
      rw [this]
      have hw : (lsbDigits (n / 2)).length + 1 + k = ((lsbDigits (n / 2)).length + k) + 1 := by
        omega
      rw [hw]
      show _ = (if n % 2 = 1 then '1' else '0') :: lsbBits ((lsbDigits (n / 2)).length + k) (n / 2)
      rfl

theorem lsbDigits_length_le : ∀ w n : Nat, n < 2 ^ w → (lsbDigits n).length ≤ w := by
  intro w
  induction w with
  | zero =>
    intro n h
    interval_cases n
    simp [lsbDigits, lsbDigitsF]
  | succ w ih =>
    intro n h
    rcases Nat.eq_zero_or_pos n with h0 | hpos
    · subst h0; simp [lsbDigits, lsbDigitsF]
    · rw [lsbDigits_pos n hpos]
      have : n / 2 < 2 ^ w := by
        rw [Nat.div_lt_iff_lt_mul (by omega)]
        calc n < 2 ^ (w + 1) := h
        _ = 2 ^ w * 2 := by ring
      simpa using ih (n / 2) this

theorem natBinStr_zero : natBinStr 0 = ['0'] := rfl

theorem natBinStr_pos (n : Nat) (h : 0 < n) : natBinStr n = (lsbDigits n).reverse := by
  unfold natBinStr
  rw [if_neg (by omega)]

theorem natBinPad_reverse (w n : Nat) (hw : 1 ≤ w) (h : n < 2 ^ w) :
    (natBinPad w n).reverse = lsbBits w n := by
  unfold natBinPad
  rcases Nat.eq_zero_or_pos n with h0 | hpos
  · subst h0
    rw [natBinStr_zero, lsbBits_zero]
    rw [List.reverse_append, List.reverse_replicate]
    show ['0'] ++ List.replicate (w - 1) '0' = _
    rw [show (['0'] : List Char) = List.replicate 1 '0' from rfl, List.append_replicate_replicate]
    congr 1
    omega
  · rw [natBinStr_pos n hpos]
    rw [List.reverse_append, List.reverse_reverse, List.reverse_replicate]
    have hlen : (lsbDigits n).length ≤ w := lsbDigits_length_le w n h
    have h2 := lsbDigits_append_replicate n (w - (lsbDigits n).reverse.length)
    rw [List.length_reverse] at h2
    rw [List.length_reverse, h2]
    congr 1
    omega

theorem decodeBits_lsbBits (w n : Nat) : decodeBits (lsbBits w n) = n % 2 ^ w := by
  induction w generalizing n with
  | zero => simp [lsbBits, decodeBits, Nat.mod_one]
  | succ w ih =>
    show decodeBits ((if n % 2 = 1 then '1' else '0') :: lsbBits w (n / 2)) = _
    rw [show ∀ c l, decodeBits (c :: l) = bitVal c + 2 * decodeBits l from fun _ _ => rfl]
    rw [ih]
    have hb : bitVal (if n % 2 = 1 then '1' else '0') = n % 2 := by
      rcases Nat.mod_two_eq_zero_or_one n with h | h <;> simp [h, bitVal]
    rw [hb, pow_succ, Nat.mul_comm (2 ^ w) 2, Nat.mod_mul]

theorem decodeBits_lsbBits_of_lt (w n : Nat) (h : n < 2 ^ w) :
    decodeBits (lsbBits w n) = n := by
  rw [decodeBits_lsbBits, Nat.mod_eq_of_lt h]

/-! Slices of the bit buffer under appends and in-place overwrites. -/

theorem slice_append (l1 l2 : List Char) (p k : Nat) (h : p + k ≤ l1.length) :
    ((l1 ++ l2).drop p).take k = (l1.drop p).take k := by
  rw [List.drop_append_eq_append_drop, List.take_append_eq_append_take]
  rw [show k - (l1.drop p).length = 0 from by simp; omega]
  simp

theorem pyOverwrite_decomp :
    ∀ (bits pre mid suf : List Char), mid.length = bits.length →
      pyOverwrite (pre ++ mid ++ suf) pre.length bits = .ok (pre ++ bits ++ suf) := by
  intro bits
  induction bits with
  | nil =>
    intro pre mid suf hm
    rw [List.eq_nil_of_length_eq_zero hm]
    simp [pyOverwrite]
  | cons b rest ih =>
    intro pre mid suf hm
    match mid, hm with
    | m :: mrest, hm =>
      have hp : pre.length < (pre ++ (m :: mrest) ++ suf).length := by
        simp
      have hset : (pre ++ (m :: mrest) ++ suf).set pre.length b =
          (pre ++ [b]) ++ mrest ++ suf := by
        rw [List.append_assoc, List.set_append_right pre.length b (by omega)]
        rw [Nat.sub_self]
        simp
      have hstep : pyOverwrite (pre ++ (m :: mrest) ++ suf) pre.length (b :: rest) =
          pyOverwrite ((pre ++ [b]) ++ mrest ++ suf) (pre.length + 1) rest := by
        show (match pyListSet (pre ++ (m :: mrest) ++ suf) pre.length b with
          | Except.error e => Except.error e
          | Except.ok bc2 => pyOverwrite bc2 (pre.length + 1) rest) = _
        rw [pyListSet, if_pos hp, hset]
      rw [hstep]
      have hlen : (pre ++ [b]).length = pre.length + 1 := by simp
      rw [← hlen]
      rw [ih (pre ++ [b]) mrest suf (by simp at hm ⊢; omega)]
      simp

theorem pyOverwrite_ok (bits bc : List Char) (p : Nat) (h : p + bits.length ≤ bc.length) :
    pyOverwrite bc p bits = .ok (bc.take p ++ bits ++ bc.drop (p + bits.length)) := by
  have hdecomp : bc = bc.take p ++ (bc.drop p).take bits.length ++ bc.drop (p + bits.length) := by
    rw [List.append_assoc]
    rw [show bc.drop (p + bits.length) = (bc.drop p).drop bits.length from by
      rw [List.drop_drop]]
    rw [List.take_append_drop, List.take_append_drop]
  have hmid : ((bc.drop p).take bits.length).length = bits.length := by
    simp
    omega
  have hpre : (bc.take p).length = p := by
    simp
    omega
  have key := pyOverwrite_decomp bits (bc.take p) ((bc.drop p).take bits.length)
    (bc.drop (p + bits.length)) hmid
  rw [hpre] at key
  rw [← hdecomp] at key
  exact key

theorem pyOverwrite_error_name :
    ∀ (bits bc : List Char) (p : Nat) (e : AErr),
      pyOverwrite bc p bits = .error e → e = .exn "IndexError" := by
  intro bits
  induction bits with
  | nil => intro bc p e h; exact absurd h (by simp [pyOverwrite])
  | cons b rest ih =>
    intro bc p e h
    by_cases hp : p < bc.length
    · have hstep : pyOverwrite bc p (b :: rest) = pyOverwrite (bc.set p b) (p + 1) rest := by
        show (match pyListSet bc p b with
          | Except.error e => Except.error e
          | Except.ok bc2 => pyOverwrite bc2 (p + 1) rest) = _
        rw [pyListSet, if_pos hp]
      rw [hstep] at h
      exact ih _ _ _ h
    · have hstep : pyOverwrite bc p (b :: rest) = Except.error (AErr.exn "IndexError") := by
        show (match pyListSet bc p b with
          | Except.error e => Except.error e
          | Except.ok bc2 => pyOverwrite bc2 (p + 1) rest) = _
        rw [pyListSet, if_neg hp]
      rw [hstep] at h
      cases h
      rfl

/-- The abstract effect of `Assembler.__apply_patches` on a successful run:
the buffer keeps its length, every patched position now holds the 32-bit
LSB-first encoding of its target's recorded offset, and every region
disjoint from all patch ranges is untouched. -/
theorem applyPatches_spec :
    ∀ (patches : List (Nat × Nat)) (offsets : List Nat) (bc bcF : List Char),
      applyPatches offsets patches bc = .ok bcF →
      List.Pairwise (fun x y => x.1 + 32 ≤ y.1) patches →
      (∀ pq ∈ patches, pq.1 + 32 ≤ bc.length) →
      (∀ pq ∈ patches, ∀ a, offsets.get? pq.2 = some a → a < 4294967296) →
      bcF.length = bc.length ∧
      (∀ pq ∈ patches, ∃ a, offsets.get? pq.2 = some a ∧
        (bcF.drop pq.1).take 32 = lsbBits 32 a) ∧
      (∀ q k, (∀ pq ∈ patches, q + k ≤ pq.1 ∨ pq.1 + 32 ≤ q) →
        (bcF.drop q).take k = (bc.drop q).take k) := by
  intro patches
  induction patches with
  | nil =>
    intro offsets bc bcF h _ _ _
    refine ⟨by cases h; rfl, by simp, ?_⟩
    intro q k _
    cases h
    rfl
  | cons head rest ih =>
    rcases head with ⟨p, off⟩
    intro offsets bc bcF h hpw hin habound
    cases hget : offsets.get? off with
    | none =>
      exfalso
      have hbad : applyPatches offsets ((p, off) :: rest) bc =
          Except.error (AErr.exn "IndexError") := by
        show (match offsets.get? off with
          | none => Except.error (AErr.exn "IndexError")
          | some a =>
            match pyOverwrite bc p ((natBinPad 32 a).reverse) with
            | Except.error e => Except.error e
            | Except.ok bc2 => applyPatches offsets rest bc2) = _
        rw [hget]
      rw [hbad] at h
      cases h
    | some a =>
      have ha : a < 4294967296 :=
        habound (p, off) (List.mem_cons_self _ _) a hget
      have henc : (natBinPad 32 a).reverse = lsbBits 32 a :=
        natBinPad_reverse 32 a (by omega) (by norm_num; omega)
      have hlen32 : ((natBinPad 32 a).reverse).length = 32 := by
        rw [henc, lsbBits_length]
      have hpb : p + 32 ≤ bc.length := hin (p, off) (List.mem_cons_self _ _)
      have hover : pyOverwrite bc p ((natBinPad 32 a).reverse) =
          Except.ok (bc.take p ++ (natBinPad 32 a).reverse ++ bc.drop (p + 32)) := by
        rw [pyOverwrite_ok ((natBinPad 32 a).reverse) bc p (by rw [hlen32]; omega), hlen32]
      have hstep : applyPatches offsets ((p, off) :: rest) bc =
          (match pyOverwrite bc p ((natBinPad 32 a).reverse) with
            | Except.error e => Except.error e
            | Except.ok bc2 => applyPatches offsets rest bc2) := by
        show (match offsets.get? off with
          | none => Except.error (AErr.exn "IndexError")
          | some a2 =>
            match pyOverwrite bc p ((natBinPad 32 a2).reverse) with
            | Except.error e => Except.error e
            | Except.ok bc2 => applyPatches offsets rest bc2) = _
        rw [hget]
      rw [hover] at hstep
      have hstep2 : applyPatches offsets ((p, off) :: rest) bc =
          applyPatches offsets rest
            (bc.take p ++ (natBinPad 32 a).reverse ++ bc.drop (p + 32)) := hstep
      rw [hstep2] at h
      have hbc' :
          (bc.take p ++ (natBinPad 32 a).reverse ++ bc.drop (p + 32)).length = bc.length := by
        simp [hlen32]
        omega
      have hrest := ih offsets _ bcF h (List.Pairwise.of_cons hpw)
        (by
          intro pq hmem
          rw [hbc']
          exact hin pq (List.mem_cons_of_mem _ hmem))
        (by
          intro pq hmem a2 hget2
          exact habound pq (List.mem_cons_of_mem _ hmem) a2 hget2)
      rcases hrest with ⟨hlenF, hdoneRest, huntouched⟩
      have hsliceAt :
          ((bc.take p ++ (natBinPad 32 a).reverse ++ bc.drop (p + 32)).drop p).take 32 =
            lsbBits 32 a := by
        rw [List.append_assoc]
        rw [List.drop_append_eq_append_drop]
        have htp : (bc.take p).length = p := by simp; omega
        rw [htp, Nat.sub_self, List.drop_of_length_le (by omega), List.nil_append]
        show (((natBinPad 32 a).reverse ++ bc.drop (p + 32)).drop 0).take 32 = _
        rw [List.drop_zero, List.take_append_eq_append_take]
        rw [List.take_of_length_le (by rw [hlen32]), hlen32, Nat.sub_self]
        simp [henc]
      have hsliceOut :
          ∀ q k, q + k ≤ p ∨ p + 32 ≤ q →
            ((bc.take p ++ (natBinPad 32 a).reverse ++ bc.drop (p + 32)).drop q).take k =
              (bc.drop q).take k := by
        intro q k hdisj
        rcases hdisj with hleft | hright
        · rw [List.append_assoc]
          rw [slice_append _ _ q k (by simp; omega)]
          rw [List.drop_take, List.take_take]
          congr 1
          omega
        · have hA : (bc.take p ++ (natBinPad 32 a).reverse).length = p + 32 := by
            simp [hlen32]
            omega
          rw [List.drop_append_eq_append_drop, hA]
          rw [List.drop_of_length_le (by rw [hA]; omega), List.nil_append]
          rw [List.drop_drop]
          congr 2
          omega
      constructor
      · rw [hlenF, hbc']
      constructor
      · intro pq hmem
        rcases List.mem_cons.mp hmem with hhd | htl
        · subst hhd
          refine ⟨a, hget, ?_⟩
          rw [huntouched p 32 ?_]
          · exact hsliceAt
          · intro rq hrq
            left
            exact List.rel_of_pairwise_cons hpw hrq
        · exact hdoneRest pq htl
      · intro q k hdisj
        rw [huntouched q k ?_]
        · exact hsliceOut q k (hdisj (p, off) (List.mem_cons_self _ _))
        · intro rq hrq
          exact hdisj rq (List.mem_cons_of_mem _ hrq)

/-! An instrumented copy of the emission pass.  It computes exactly what
`assembleLoop` computes and additionally records, in `fields`, one entry
per emitted `L`-argument: the bit position of its 32-bit field and the
instruction index the label resolved to (covering both backward references,
emitted immediately, and forward references, emitted as placeholders and
patched later). -/

structure AsmStateT where
  bytecode : List Char
  offsets : List Nat
  patches : List (Nat × Nat)
  fields : List (Nat × Nat)
deriving DecidableEq

/-- Forget the instrumentation. -/
def projT (t : AsmStateT) : AsmState := ⟨t.bytecode, t.offsets, t.patches⟩

/-- Instrumented `Assembler.__assemble_label`. -/
def assembleLabelT (codeLabels : List (List Char × Nat)) (t : AsmStateT)
    (s : List Char) : Except AErr AsmStateT :=
  match lookupA codeLabels s with
  | none => .error (.assembleError ("Undefined code label " ++ String.mk s))
  | some off =>
    if h : off < t.offsets.length then
      .ok { t with
        bytecode := t.bytecode ++ (natBinPad 32 (t.offsets.get ⟨off, h⟩)).reverse,
        fields := t.fields ++ [(t.bytecode.length, off)] }
    else
      .ok { t with
        bytecode := t.bytecode ++ (natBinPad 32 0).reverse,
        patches := t.patches ++ [(t.bytecode.length, off)],
        fields := t.fields ++ [(t.bytecode.length, off)] }

/-- Instrumented argument dispatch. -/
def assembleArgT (codeLabels : List (List Char × Nat)) (t : AsmStateT) :
    Char × Arg → Except AErr AsmStateT
  | (ty, a) =>
    if ty = 'R' then
      match a with
      | .reg id r =>
        match assembleRegister (id, r) with
        | .error e => .error e
        | .ok bits => .ok { t with bytecode := t.bytecode ++ bits }
      | .str _ => .error (.exn "TypeError")
    else if ty = 'C' then
      match a with
      | .str s =>
        match assembleConstant s with
        | .error e => .error e
        | .ok bits => .ok { t with bytecode := t.bytecode ++ bits }
      | .reg _ _ => .error (.exn "TypeError")
    else if ty = 'L' then
      match a with
      | .str s => assembleLabelT codeLabels t s
      | .reg _ _ => .error (.exn "TypeError")
    else .ok t

/-- Instrumented argument loop. -/
def assembleArgsLoopT (codeLabels : List (List Char × Nat)) :
    AsmStateT → List (Char × Arg) → Except AErr AsmStateT
  | t, [] => .ok t
  | t, ta :: rest =>
    match assembleArgT codeLabels t ta with
    | .error e => .error e
    | .ok t' => assembleArgsLoopT codeLabels t' rest

/-- Instrumented per-instruction emission. -/
def assembleInstructionT (codeLabels : List (List Char × Nat)) (t : AsmStateT)
    (ins : Instruction) : Except AErr AsmStateT :=
  match lookupOpcode ins.1 with
  | none => .error (.exn "KeyError")
  | some op =>
    let t' : AsmStateT :=
      { t with
        offsets := t.offsets ++ [t.bytecode.length],
        bytecode := t.bytecode ++ op.code }
    assembleArgsLoopT codeLabels t' (op.args.zip ins.2)

/-- Instrumented instruction loop. -/
def assembleLoopGoT (codeLabels : List (List Char × Nat)) :
    AsmStateT → List Instruction → Except AErr AsmStateT
  | t, [] => .ok t
  | t, ins :: rest =>
    match assembleInstructionT codeLabels t ins with
    | .error e => .error e
    | .ok t' => assembleLoopGoT codeLabels t' rest

/-- Instrumented emission pass. -/
def assembleLoopT (p : PState) : Except AErr AsmStateT :=
  assembleLoopGoT p.code_labels ⟨[], [], [], []⟩ p.code_section

/-- The bit position and resolved target index of every `L`-argument field
the emission pass produces (empty when the pass fails). -/
def labelFields (p : PState) : List (Nat × Nat) :=
  match assembleLoopT p with
  | .ok t => t.fields
  | .error _ => []

theorem projT_assembleLabel (L : List (List Char × Nat)) (t : AsmStateT) (s : List Char) :
    (assembleLabelT L t s).map projT = assembleLabel L (projT t) s := by
  unfold assembleLabelT assembleLabel
  cases lookupA L s with
  | none => rfl
  | some off =>
    dsimp only [projT]
    by_cases h : off < t.offsets.length
    · rw [dif_pos h, dif_pos h]
      rfl
    · rw [dif_neg h, dif_neg h]
      rfl

theorem projT_assembleArg (L : List (List Char × Nat)) (t : AsmStateT) (ta : Char × Arg) :
    (assembleArgT L t ta).map projT = assembleArg L (projT t) ta := by
  rcases ta with ⟨ty, a⟩
  unfold assembleArgT assembleArg
  dsimp only
  by_cases hR : ty = 'R'
  · rw [if_pos hR, if_pos hR]
    cases a with
    | reg id r =>
      dsimp only
      cases assembleRegister (id, r) <;> rfl
    | str s => rfl
  · rw [if_neg hR, if_neg hR]
    by_cases hC : ty = 'C'
    · rw [if_pos hC, if_pos hC]
      cases a with
      | reg id r => rfl
      | str s =>
        dsimp only
        cases assembleConstant s <;> rfl
    · rw [if_neg hC, if_neg hC]
      by_cases hL : ty = 'L'
      · rw [if_pos hL, if_pos hL]
        cases a with
        | reg id r => rfl
        | str s => exact projT_assembleLabel L t s
      · rw [if_neg hL, if_neg hL]
        rfl

theorem projT_assembleArgsLoop (L : List (List Char × Nat)) :
    ∀ (tas : List (Char × Arg)) (t : AsmStateT),
      (assembleArgsLoopT L t tas).map projT = assembleArgsLoop L (projT t) tas := by
  intro tas
  induction tas with
  | nil => intro t; rfl
  | cons ta rest ih =>
    intro t
    show (match assembleArgT L t ta with
      | Except.error e => Except.error e
      | Except.ok t' => assembleArgsLoopT L t' rest).map projT =
      (match assembleArg L (projT t) ta with
        | Except.error e => Except.error e
        | Except.ok s' => assembleArgsLoop L s' rest)
    rw [← projT_assembleArg]
    cases assembleArgT L t ta with
    | error e => rfl
    | ok t' => exact ih t'

theorem projT_assembleInstruction (L : List (List Char × Nat)) (t : AsmStateT)
    (ins : Instruction) :
    (assembleInstructionT L t ins).map projT = assembleInstruction L (projT t) ins := by
  unfold assembleInstructionT assembleInstruction
  cases lookupOpcode ins.1 with
  | none => rfl
  | some op => exact projT_assembleArgsLoop L (op.args.zip ins.2) _

theorem projT_assembleLoopGo (L : List (List Char × Nat)) :
    ∀ (inss : List Instruction) (t : AsmStateT),
      (assembleLoopGoT L t inss).map projT = assembleLoopGo L (projT t) inss := by
  intro inss
  induction inss with
  | nil => intro t; rfl
  | cons ins rest ih =>
    intro t
    show (match assembleInstructionT L t ins with
      | Except.error e => Except.error e
      | Except.ok t' => assembleLoopGoT L t' rest).map projT =
      (match assembleInstruction L (projT t) ins with
        | Except.error e => Except.error e
        | Except.ok s' => assembleLoopGo L s' rest)
    rw [← projT_assembleInstruction]
    cases assembleInstructionT L t ins with
    | error e => rfl
    | ok t' => exact ih t'

theorem projT_assembleLoop (p : PState) :
    (assembleLoopT p).map projT = assembleLoop p :=
  projT_assembleLoopGo p.code_labels p.code_section ⟨[], [], [], []⟩

theorem natBinPad_length_ge (w n : Nat) : w ≤ (natBinPad w n).length := by
  unfold natBinPad
  simp
  omega

theorem get?_append_some {l l2 : List Nat} {n a : Nat} (h : l.get? n = some a) :
    (l ++ l2).get? n = some a := by
  have hlt : n < l.length := by
    rcases List.get?_eq_some.mp h with ⟨hlt, _⟩
    exact hlt
  rw [List.get?_append hlt]
  exact h

/-- The invariant carried through the emission loop: recorded offsets never
exceed the buffer length, label fields lie inside the buffer, are pairwise
separated by 32 bits, the pending patches are a sublist of the fields, and
every field either awaits patching or already holds its target's offset. -/
structure INVT (t : AsmStateT) : Prop where
  off_le : ∀ a ∈ t.offsets, a ≤ t.bytecode.length
  fld_le : ∀ pq ∈ t.fields, pq.1 + 32 ≤ t.bytecode.length
  fld_sep : List.Pairwise (fun x y => x.1 + 32 ≤ y.1) t.fields
  pat_sub : t.patches.Sublist t.fields
  fld_res : ∀ pq ∈ t.fields, pq ∈ t.patches ∨
    ∃ a, t.offsets.get? pq.2 = some a ∧ (t.bytecode.drop pq.1).take 32 = lsbBits 32 a

theorem INVT_append_bits (t : AsmStateT) (bits : List Char) (inv : INVT t) :
    INVT ⟨t.bytecode ++ bits, t.offsets, t.patches, t.fields⟩ := by
  refine ⟨?_, ?_, inv.fld_sep, inv.pat_sub, ?_⟩
  · intro a hmem
    calc a ≤ t.bytecode.length := inv.off_le a hmem
    _ ≤ (t.bytecode ++ bits).length := by simp
  · intro pq hmem
    calc pq.1 + 32 ≤ t.bytecode.length := inv.fld_le pq hmem
    _ ≤ (t.bytecode ++ bits).length := by simp
  · intro pq hmem
    rcases inv.fld_res pq hmem with hp | ⟨a, hget, hslice⟩
    · exact Or.inl hp
    · refine Or.inr ⟨a, hget, ?_⟩
      rw [slice_append _ _ _ _ (inv.fld_le pq hmem)]
      exact hslice

theorem INVT_label (L : List (List Char × Nat)) (t t' : AsmStateT) (s : List Char)
    (h : assembleLabelT L t s = .ok t') (inv : INVT t)
    (hB : t'.bytecode.length < 4294967296) : INVT t' := by
  cases hL : lookupA L s with
  | none =>
    exfalso
    have hbad : assembleLabelT L t s =
        Except.error (AErr.assembleError ("Undefined code label " ++ String.mk s)) := by
      show (match lookupA L s with
        | none => Except.error (AErr.assembleError ("Undefined code label " ++ String.mk s))
        | some off =>
          if h : off < t.offsets.length then
            Except.ok { t with
              bytecode := t.bytecode ++ (natBinPad 32 (t.offsets.get ⟨off, h⟩)).reverse,
              fields := t.fields ++ [(t.bytecode.length, off)] }
          else
            Except.ok { t with
              bytecode := t.bytecode ++ (natBinPad 32 0).reverse,
              patches := t.patches ++ [(t.bytecode.length, off)],
              fields := t.fields ++ [(t.bytecode.length, off)] }) = _
      rw [hL]
    rw [hbad] at h
    cases h
  | some off =>
    have hstep : assembleLabelT L t s =
        (if hlt : off < t.offsets.length then
          Except.ok { t with
            bytecode := t.bytecode ++ (natBinPad 32 (t.offsets.get ⟨off, hlt⟩)).reverse,
            fields := t.fields ++ [(t.bytecode.length, off)] }
        else
          Except.ok { t with
            bytecode := t.bytecode ++ (natBinPad 32 0).reverse,
            patches := t.patches ++ [(t.bytecode.length, off)],
            fields := t.fields ++ [(t.bytecode.length, off)] }) := by
      show (match lookupA L s with
        | none => Except.error (AErr.assembleError ("Undefined code label " ++ String.mk s))
        | some off =>
          if h : off < t.offsets.length then
            Except.ok { t with
              bytecode := t.bytecode ++ (natBinPad 32 (t.offsets.get ⟨off, h⟩)).reverse,
              fields := t.fields ++ [(t.bytecode.length, off)] }
          else
            Except.ok { t with
              bytecode := t.bytecode ++ (natBinPad 32 0).reverse,
              patches := t.patches ++ [(t.bytecode.length, off)],
              fields := t.fields ++ [(t.bytecode.length, off)] }) = _
      rw [hL]
    rw [hstep] at h
    by_cases hlt : off < t.offsets.length
    · -- backward reference: the target offset is emitted immediately
      rw [dif_pos hlt] at h
      cases h
      set a := t.offsets.get ⟨off, hlt⟩ with ha_def
      have ha_mem : a ∈ t.offsets := List.get_mem t.offsets off hlt
      have ha_le : a ≤ t.bytecode.length := inv.off_le a ha_mem
      have hge : 32 ≤ (natBinPad 32 a).length := natBinPad_length_ge 32 a
      have hB' : (t.bytecode ++ (natBinPad 32 a).reverse).length < 4294967296 := hB
      rw [List.length_append, List.length_reverse] at hB'
      have ha32 : a < 4294967296 := by omega
      have henc : (natBinPad 32 a).reverse = lsbBits 32 a :=
        natBinPad_reverse 32 a (by omega) (by norm_num; omega)
      have hElen : ((natBinPad 32 a).reverse).length = 32 := by
        rw [henc, lsbBits_length]
      refine ⟨?_, ?_, ?_, ?_, ?_⟩
      · intro a' hmem
        calc a' ≤ t.bytecode.length := inv.off_le a' hmem
        _ ≤ _ := by simp
      · intro pq hmem
        rcases List.mem_append.mp hmem with hold | hnew
        · calc pq.1 + 32 ≤ t.bytecode.length := inv.fld_le pq hold
          _ ≤ _ := by simp
        · rcases List.mem_singleton.mp hnew with rfl
          simp [hElen]
      · rw [List.pairwise_append]
        refine ⟨inv.fld_sep, List.pairwise_singleton _ _, ?_⟩
        intro x hx y hy
        rcases List.mem_singleton.mp hy with rfl
        exact inv.fld_le x hx
      · exact inv.pat_sub.trans (List.sublist_append_left _ _)
      · intro pq hmem
        rcases List.mem_append.mp hmem with hold | hnew
        · rcases inv.fld_res pq hold with hp | ⟨a', hget, hslice⟩
          · exact Or.inl hp
          · refine Or.inr ⟨a', hget, ?_⟩
            rw [slice_append _ _ _ _ (inv.fld_le pq hold)]
            exact hslice
        · rcases List.mem_singleton.mp hnew with rfl
          refine Or.inr ⟨a, List.get?_eq_get hlt, ?_⟩
          rw [List.drop_left]
          rw [List.take_of_length_le (by rw [hElen])]
          exact henc
    · -- forward reference: a placeholder is emitted and a patch recorded
      rw [dif_neg hlt] at h
      cases h
      have henc0 : (natBinPad 32 0).reverse = lsbBits 32 0 :=
        natBinPad_reverse 32 0 (by omega) (by norm_num)
      have hElen : ((natBinPad 32 0).reverse).length = 32 := by
        rw [henc0, lsbBits_length]
      refine ⟨?_, ?_, ?_, ?_, ?_⟩
      · intro a' hmem
        calc a' ≤ t.bytecode.length := inv.off_le a' hmem
        _ ≤ _ := by simp
      · intro pq hmem
        rcases List.mem_append.mp hmem with hold | hnew
        · calc pq.1 + 32 ≤ t.bytecode.length := inv.fld_le pq hold
          _ ≤ _ := by simp
        · rcases List.mem_singleton.mp hnew with rfl
          simp [hElen]
      · rw [List.pairwise_append]
        refine ⟨inv.fld_sep, List.pairwise_singleton _ _, ?_⟩
        intro x hx y hy
        rcases List.mem_singleton.mp hy with rfl
        exact inv.fld_le x hx
      · exact inv.pat_sub.append (List.Sublist.refl _)
      · intro pq hmem
        rcases List.mem_append.mp hmem with hold | hnew
        · rcases inv.fld_res pq hold with hp | ⟨a', hget, hslice⟩
          · exact Or.inl (List.mem_append_left _ hp)
          · refine Or.inr ⟨a', hget, ?_⟩
            rw [slice_append _ _ _ _ (inv.fld_le pq hold)]
            exact hslice
        · rcases List.mem_singleton.mp hnew with rfl
          exact Or.inl (List.mem_append_right _ (List.mem_singleton.mpr rfl))

theorem INVT_arg (L : List (List Char × Nat)) (t t' : AsmStateT) (ta : Char × Arg)
    (h : assembleArgT L t ta = .ok t') (inv : INVT t)
    (hB : t'.bytecode.length < 4294967296) : INVT t' := by
  rcases ta with ⟨ty, a⟩
  unfold assembleArgT at h
  dsimp only at h
  by_cases hR : ty = 'R'
  · rw [if_pos hR] at h
    cases a with
    | reg id r =>
      dsimp only at h
      cases hreg : assembleRegister (id, r) with
      | error e => rw [hreg] at h; cases h
      | ok bits =>
        rw [hreg] at h
        cases h
        exact INVT_append_bits t bits inv
    | str s => cases h
  · rw [if_neg hR] at h
    by_cases hC : ty = 'C'
    · rw [if_pos hC] at h
      cases a with
      | reg id r => cases h
      | str s =>
        dsimp only at h
        cases hcon : assembleConstant s with
        | error e => rw [hcon] at h; cases h
        | ok bits =>
          rw [hcon] at h
          cases h
          exact INVT_append_bits t bits inv
    · rw [if_neg hC] at h
      by_cases hL2 : ty = 'L'
      · rw [if_pos hL2] at h
        cases a with
        | reg id r => cases h
        | str s => exact INVT_label L t t' s h inv hB
      · rw [if_neg hL2] at h
        cases h
        exact inv

theorem mono_argT (L : List (List Char × Nat)) (t t' : AsmStateT) (ta : Char × Arg)
    (h : assembleArgT L t ta = .ok t') :
    t.bytecode.length ≤ t'.bytecode.length := by
  rcases ta with ⟨ty, a⟩
  unfold assembleArgT at h
  dsimp only at h
  by_cases hR : ty = 'R'
  · rw [if_pos hR] at h
    cases a with
    | reg id r =>
      dsimp only at h
      cases hreg : assembleRegister (id, r) with
      | error e => rw [hreg] at h; cases h
      | ok bits => rw [hreg] at h; cases h; simp
    | str s => cases h
  · rw [if_neg hR] at h
    by_cases hC : ty = 'C'
    · rw [if_pos hC] at h
      cases a with
      | reg id r => cases h
      | str s =>
        dsimp only at h
        cases hcon : assembleConstant s with
        | error e => rw [hcon] at h; cases h
        | ok bits => rw [hcon] at h; cases h; simp
    · rw [if_neg hC] at h
      by_cases hL2 : ty = 'L'
      · rw [if_pos hL2] at h
        cases a with
        | reg id r => cases h
        | str s =>
          dsimp only at h
          cases hL3 : lookupA L s with
          | none =>
            rw [show assembleLabelT L t s =
                Except.error (AErr.assembleError ("Undefined code label " ++ String.mk s))
              from by
                show (match lookupA L s with
                  | none =>
                    Except.error (AErr.assembleError ("Undefined code label " ++ String.mk s))
                  | some off =>
                    if h : off < t.offsets.length then
                      Except.ok { t with
                        bytecode :=
                          t.bytecode ++ (natBinPad 32 (t.offsets.get ⟨off, h⟩)).reverse,
                        fields := t.fields ++ [(t.bytecode.length, off)] }
                    else
                      Except.ok { t with
                        bytecode := t.bytecode ++ (natBinPad 32 0).reverse,
                        patches := t.patches ++ [(t.bytecode.length, off)],
                        fields := t.fields ++ [(t.bytecode.length, off)] }) = _
                rw [hL3]] at h
            cases h
          | some off =>
            rw [show assembleLabelT L t s =
                (if hlt : off < t.offsets.length then
                  Except.ok { t with
                    bytecode :=
                      t.bytecode ++ (natBinPad 32 (t.offsets.get ⟨off, hlt⟩)).reverse,
                    fields := t.fields ++ [(t.bytecode.length, off)] }
                else
                  Except.ok { t with
                    bytecode := t.bytecode ++ (natBinPad 32 0).reverse,
                    patches := t.patches ++ [(t.bytecode.length, off)],
                    fields := t.fields ++ [(t.bytecode.length, off)] })
              from by
                show (match lookupA L s with
                  | none =>
                    Except.error (AErr.assembleError ("Undefined code label " ++ String.mk s))
                  | some off =>
                    if h : off < t.offsets.length then
                      Except.ok { t with
                        bytecode :=
                          t.bytecode ++ (natBinPad 32 (t.offsets.get ⟨off, h⟩)).reverse,
                        fields := t.fields ++ [(t.bytecode.length, off)] }
                    else
                      Except.ok { t with
                        bytecode := t.bytecode ++ (natBinPad 32 0).reverse,
                        patches := t.patches ++ [(t.bytecode.length, off)],
                        fields := t.fields ++ [(t.bytecode.length, off)] }) = _
                rw [hL3]] at h
            by_cases hlt : off < t.offsets.length
            · rw [dif_pos hlt] at h
              cases h
              simp
            · rw [dif_neg hlt] at h
              cases h
              simp
      · rw [if_neg hL2] at h
        cases h
        exact Nat.le_refl _

theorem mono_argsLoopT (L : List (List Char × Nat)) :
    ∀ (tas : List (Char × Arg)) (t t' : AsmStateT),
      assembleArgsLoopT L t tas = .ok t' → t.bytecode.length ≤ t'.bytecode.length := by
  intro tas
  induction tas with
  | nil => intro t t' h; cases h; exact Nat.le_refl _
  | cons ta rest ih =>
    intro t t' h
    revert h
    show (match assembleArgT L t ta with
      | Except.error e => Except.error e
      | Except.ok t1 => assembleArgsLoopT L t1 rest) = Except.ok t' → _
    cases hstep : assembleArgT L t ta with
    | error e => intro h; cases h
    | ok t1 =>
      intro h
      exact (mono_argT L t t1 ta hstep).trans (ih t1 t' h)

theorem mono_instructionT (L : List (List Char × Nat)) (t t' : AsmStateT)
    (ins : Instruction) (h : assembleInstructionT L t ins = .ok t') :
    t.bytecode.length ≤ t'.bytecode.length := by
  unfold assembleInstructionT at h
  cases hop : lookupOpcode ins.1 with
  | none => rw [hop] at h; cases h
  | some op =>
    rw [hop] at h
    dsimp only at h
    have := mono_argsLoopT L (op.args.zip ins.2) _ t' h
    calc t.bytecode.length ≤ (t.bytecode ++ op.code).length := by simp
    _ ≤ t'.bytecode.length := this

theorem mono_loopGoT (L : List (List Char × Nat)) :
    ∀ (inss : List Instruction) (t t' : AsmStateT),
      assembleLoopGoT L t inss = .ok t' → t.bytecode.length ≤ t'.bytecode.length := by
  intro inss
  induction inss with
  | nil => intro t t' h; cases h; exact Nat.le_refl _
  | cons ins rest ih =>
    intro t t' h
    revert h
    show (match assembleInstructionT L t ins with
      | Except.error e => Except.error e
      | Except.ok t1 => assembleLoopGoT L t1 rest) = Except.ok t' → _
    cases hstep : assembleInstructionT L t ins with
    | error e => intro h; cases h
    | ok t1 =>
      intro h
      exact (mono_instructionT L t t1 ins hstep).trans (ih t1 t' h)

theorem INVT_argsLoop (L : List (List Char × Nat)) :
    ∀ (tas : List (Char × Arg)) (t t' : AsmStateT),
      assembleArgsLoopT L t tas = .ok t' → INVT t →
      t'.bytecode.length < 4294967296 → INVT t' := by
  intro tas
  induction tas with
  | nil => intro t t' h inv _; cases h; exact inv
  | cons ta rest ih =>
    intro t t' h inv hB
    revert h
    show (match assembleArgT L t ta with
      | Except.error e => Except.error e
      | Except.ok t1 => assembleArgsLoopT L t1 rest) = Except.ok t' → _
    cases hstep : assembleArgT L t ta with
    | error e => intro h; cases h
    | ok t1 =>
      intro h
      have h1B : t1.bytecode.length < 4294967296 :=
        Nat.lt_of_le_of_lt (mono_argsLoopT L rest t1 t' h) hB
      exact ih t1 t' h (INVT_arg L t t1 ta hstep inv h1B) hB

theorem INVT_instruction (L : List (List Char × Nat)) (t t' : AsmStateT)
    (ins : Instruction) (h : assembleInstructionT L t ins = .ok t')
    (inv : INVT t) (hB : t'.bytecode.length < 4294967296) : INVT t' := by
  unfold assembleInstructionT at h
  cases hop : lookupOpcode ins.1 with
  | none => rw [hop] at h; cases h
  | some op =>
    rw [hop] at h
    dsimp only at h
    have inv1 : INVT ⟨t.bytecode ++ op.code, t.offsets ++ [t.bytecode.length],
        t.patches, t.fields⟩ := by
      refine ⟨?_, ?_, inv.fld_sep, inv.pat_sub, ?_⟩
      · intro a hmem
        rcases List.mem_append.mp hmem with hold | hnew
        · calc a ≤ t.bytecode.length := inv.off_le a hold
          _ ≤ _ := by simp
        · rcases List.mem_singleton.mp hnew with rfl
          simp
      · intro pq hmem
        calc pq.1 + 32 ≤ t.bytecode.length := inv.fld_le pq hmem
        _ ≤ _ := by simp
      · intro pq hmem
        rcases inv.fld_res pq hmem with hp | ⟨a, hget, hslice⟩
        · exact Or.inl hp
        · refine Or.inr ⟨a, get?_append_some hget, ?_⟩
          rw [slice_append _ _ _ _ (inv.fld_le pq hmem)]
          exact hslice
    exact INVT_argsLoop L (op.args.zip ins.2) _ t' h inv1 hB

theorem INVT_loopGo (L : List (List Char × Nat)) :
    ∀ (inss : List Instruction) (t t' : AsmStateT),
      assembleLoopGoT L t inss = .ok t' → INVT t →
      t'.bytecode.length < 4294967296 → INVT t' := by
  intro inss
  induction inss with
  | nil => intro t t' h inv _; cases h; exact inv
  | cons ins rest ih =>
    intro t t' h inv hB
    revert h
    show (match assembleInstructionT L t ins with
      | Except.error e => Except.error e
      | Except.ok t1 => assembleLoopGoT L t1 rest) = Except.ok t' → _
    cases hstep : assembleInstructionT L t ins with
    | error e => intro h; cases h
    | ok t1 =>
      intro h
      have h1B : t1.bytecode.length < 4294967296 :=
        Nat.lt_of_le_of_lt (mono_loopGoT L rest t1 t' h) hB
      exact ih t1 t' h (INVT_instruction L t t1 ins hstep inv h1B) hB

/-- The invariant holds at the end of a successful emission pass whose
final buffer is shorter than 2^32 bits. -/
theorem assembleLoopT_inv (p : PState) (t : AsmStateT)
    (h : assembleLoopT p = .ok t) (hB : t.bytecode.length < 4294967296) : INVT t := by
  have inv0 : INVT ⟨[], [], [], []⟩ := by
    refine ⟨?_, ?_, ?_, ?_, ?_⟩ <;> simp
  exact INVT_loopGo p.code_labels p.code_section _ t h inv0 hB

/-- C1 (counterexample): in the program `.code / jump end / end: / hlt` the
`jump` operand field starts at bit 5 and references instruction 1 (`hlt`),
whose recorded bit offset is 37.  The emitted 32-bit value decodes to 37 —
the raw bit offset — while the claim's bit-offset-divided-by-8 would be 4,
so the claimed equality fails at this input. -/
theorem C1_counterexample :
    ((analyse [".code", "jump end", "end:", "hlt"]).toOption.bind (fun st =>
      (assembleLoop st).toOption.bind (fun s =>
        (applyPatches s.offsets s.patches s.bytecode).toOption.map (fun bcF =>
          (s.offsets.get? 1, readField bcF 5))))) = some (some 37, 37) ∧
    37 / 8 = 4 ∧ ¬ (37 : Nat) = 37 / 8 :=
  ⟨rfl, rfl, by decide⟩

/-- C1 (amended): for every successfully assembled program whose bit buffer
fits 2^32 bits, the 32-bit value emitted at each `L`-argument's field
(read LSB-first at its position, for forward and backward references both)
equals the recorded bit offset of the referenced instruction — the raw
entry of `__offsets_list`, not divided by 8.  `labelFields` pairs each
`L`-argument's field position with its resolved instruction index, and
`s.offsets.get? pq.2` is the bit offset the assembler recorded for that
instruction. -/
theorem C1_amended (p : PState) (s : AsmState) (bcF : List Char)
    (h1 : assembleLoop p = .ok s)
    (h2 : applyPatches s.offsets s.patches s.bytecode = .ok bcF)
    (h32 : s.bytecode.length < 4294967296) :
    ∀ pq ∈ labelFields p, ∃ a, s.offsets.get? pq.2 = some a ∧ readField bcF pq.1 = a := by
  have hproj := projT_assembleLoop p
  cases hT : assembleLoopT p with
  | error e =>
    rw [hT, h1] at hproj
    cases hproj
  | ok t =>
    rw [hT, h1] at hproj
    simp only [Except.map, Except.ok.injEq] at hproj
    have hofseq : s.offsets = t.offsets := by rw [← hproj]; rfl
    have hpateq : s.patches = t.patches := by rw [← hproj]; rfl
    have hbceq : s.bytecode = t.bytecode := by rw [← hproj]; rfl
    rw [hbceq] at h32
    have inv : INVT t := assembleLoopT_inv p t hT h32
    have hfields : labelFields p = t.fields := by
      unfold labelFields
      rw [hT]
    rw [hfields, hofseq]
    rw [hofseq, hpateq, hbceq] at h2
    intro pq hmem
    have hsep : List.Pairwise (fun x y : Nat × Nat => x.1 + 32 ≤ y.1) t.patches :=
      List.Pairwise.sublist inv.pat_sub inv.fld_sep
    have hinrange : ∀ rq ∈ t.patches, rq.1 + 32 ≤ t.bytecode.length := fun rq hrq =>
      inv.fld_le rq (inv.pat_sub.subset hrq)
    have habound : ∀ rq ∈ t.patches, ∀ a, t.offsets.get? rq.2 = some a →
        a < 4294967296 := by
      intro rq _ a hget
      have hm : a ∈ t.offsets := List.get?_mem hget
      have := inv.off_le a hm
      omega
    rcases applyPatches_spec t.patches t.offsets t.bytecode bcF h2 hsep hinrange habound
      with ⟨_, hpatched, huntouched⟩
    by_cases hp : pq ∈ t.patches
    · rcases hpatched pq hp with ⟨a, hget, hslice⟩
      refine ⟨a, hget, ?_⟩
      unfold readField
      rw [hslice]
      exact decodeBits_lsbBits_of_lt 32 a (by norm_num [habound pq hp a hget])
    · rcases inv.fld_res pq hmem with hp' | ⟨a, hget, hslice⟩
      · exact absurd hp' hp
      · refine ⟨a, hget, ?_⟩
        have hsep' : List.Pairwise
            (fun x y : Nat × Nat => x.1 + 32 ≤ y.1 ∨ y.1 + 32 ≤ x.1) t.fields :=
          inv.fld_sep.imp (fun h => Or.inl h)
        have hsymm : Symmetric
            (fun x y : Nat × Nat => x.1 + 32 ≤ y.1 ∨ y.1 + 32 ≤ x.1) := by
          intro x y hxy
          rcases hxy with h | h
          · exact Or.inr h
          · exact Or.inl h
        unfold readField
        rw [huntouched pq.1 32 ?_]
        · rw [hslice]
          refine decodeBits_lsbBits_of_lt 32 a ?_
          have hm : a ∈ t.offsets := List.get?_mem hget
          have := inv.off_le a hm
          norm_num
          omega
        · intro rq hrq
          have hne : pq ≠ rq := fun he => hp (he ▸ hrq)
          exact List.Pairwise.forall hsymm hsep' hmem (inv.pat_sub.subset hrq) hne

/-- Concrete program for exercising the amended C1 statement: a forward
`jump` to a label on the final `hlt`. -/
def pWitC1 : PState :=
  ⟨some ParseMode.code, some 0, [], [],
    [("end".toList, 1)],
    [("jump".toList, [Arg.str "end".toList]), ("hlt".toList, [])]⟩

/-- C1 (witness): the amended statement instantiated on `pWitC1`, whose
single label field sits at bit 5 and references instruction 1. -/
theorem C1_witness :
    ∃ s bcF, assembleLoop pWitC1 = .ok s ∧
      applyPatches s.offsets s.patches s.bytecode = .ok bcF ∧
      ∃ a, s.offsets.get? 1 = some a ∧ readField bcF 5 = a := by
  refine ⟨_, _, rfl, rfl, ?_⟩
  exact C1_amended pWitC1 _ _ rfl rfl (by decide) (5, 1) (by decide)

/-! Facts about the file-writing stage. -/

theorem packU32_ok (v : Int) (bs : List Nat) (h : packU32 v = .ok bs) :
    0 ≤ v ∧ v < 4294967296 ∧ bs = le32 v.toNat := by
  unfold packU32 at h
  split at h
  · next hc => exact ⟨hc.1, hc.2, (Except.ok.inj h).symm⟩
  · cases h

theorem packU8_ok (v : Int) (b : Nat) (h : packU8 v = .ok b) :
    0 ≤ v ∧ v ≤ 255 ∧ b = v.toNat := by
  unfold packU8 at h
  split at h
  · next hc => exact ⟨hc.1, hc.2, (Except.ok.inj h).symm⟩
  · cases h

theorem binVal_minus (rest : List Char) : binVal ('-' :: rest) = binVal rest := rfl

theorem pyIntOfBits_packU8 (ch : List Char) (v : Int) (b : Nat)
    (hpi : pyIntOfBits ch = .ok v) (hp8 : packU8 v = .ok b) : b = binVal ch := by
  cases ch with
  | nil => cases hpi
  | cons c rest =>
    unfold pyIntOfBits at hpi
    dsimp only at hpi
    by_cases hc : c = '-'
    · rw [if_pos hc] at hpi
      split at hpi
      · have hv : v = -(binVal rest : Int) := (Except.ok.inj hpi).symm
        rcases packU8_ok v b hp8 with ⟨hge, _, hb⟩
        have hz : (binVal rest : Int) = 0 := by omega
        subst hc
        rw [binVal_minus]
        omega
      · cases hpi
    · rw [if_neg hc] at hpi
      split at hpi
      · have hv : v = ((binVal (c :: rest) : Nat) : Int) := (Except.ok.inj hpi).symm
        rcases packU8_ok v b hp8 with ⟨_, _, hb⟩
        omega
      · cases hpi

theorem packCode_ok : ∀ (chs : List (List Char)) (bs : List Nat),
    packCode chs = .ok bs → bs = chs.map binVal := by
  intro chs
  induction chs with
  | nil => intro bs h; cases h; rfl
  | cons ch rest ih =>
    intro bs h
    revert h
    show (match pyIntOfBits ch with
      | Except.error e => Except.error e
      | Except.ok v =>
        match packU8 v with
        | Except.error e => Except.error e
        | Except.ok b =>
          match packCode rest with
          | Except.error e => Except.error e
          | Except.ok bs2 => Except.ok (b :: bs2)) = Except.ok bs → _
    cases hpi : pyIntOfBits ch with
    | error e => dsimp only; intro h; cases h
    | ok v =>
      dsimp only
      cases hp8 : packU8 v with
      | error e => dsimp only; intro h; cases h
      | ok b =>
        dsimp only
        cases hrec : packCode rest with
        | error e => dsimp only; intro h; cases h
        | ok bs2 =>
          dsimp only
          intro h
          cases h
          rw [ih bs2 hrec, pyIntOfBits_packU8 ch v b hpi hp8]
          rfl

theorem packData_ok : ∀ (data : List Int) (bs : List Nat),
    packData data = .ok bs →
    bs = data.map Int.toNat ∧ ∀ b ∈ data, 0 ≤ b ∧ b ≤ 255 := by
  intro data
  induction data with
  | nil => intro bs h; cases h; exact ⟨rfl, by simp⟩
  | cons v rest ih =>
    intro bs h
    revert h
    show (match packU8 v with
      | Except.error e => Except.error e
      | Except.ok b =>
        match packData rest with
        | Except.error e => Except.error e
        | Except.ok bs2 => Except.ok (b :: bs2)) = Except.ok bs → _
    cases hp8 : packU8 v with
    | error e => dsimp only; intro h; cases h
    | ok b =>
      dsimp only
      cases hrec : packData rest with
      | error e => dsimp only; intro h; cases h
      | ok bs2 =>
        dsimp only
        intro h
        cases h
        rcases packU8_ok v b hp8 with ⟨hge, hle, hb⟩
        rcases ih bs2 hrec with ⟨hmap, hbound⟩
        refine ⟨by rw [hmap, hb]; rfl, ?_⟩
        intro x hx
        rcases List.mem_cons.mp hx with rfl | hx2
        · exact ⟨hge, hle⟩
        · exact hbound x hx2

theorem chunksGo_length : ∀ (f : Nat) (l : List Char), l.length ≤ f →
    (chunksGo f l).length = (l.length + 7) / 8 := by
  intro f
  induction f with
  | zero =>
    intro l h
    have hl : l = [] := List.eq_nil_of_length_eq_zero (by omega)
    subst hl
    rfl
  | succ f ih =>
    intro l h
    cases l with
    | nil => rfl
    | cons c r =>
      show ((c :: r).take 8 :: chunksGo f ((c :: r).drop 8)).length = _
      rw [List.length_cons, ih ((c :: r).drop 8) (by simp at h ⊢; omega)]
      simp only [List.length_drop, List.length_cons]
      omega

theorem chunks8_length (l : List Char) : (chunks8 l).length = (l.length + 7) / 8 :=
  chunksGo_length l.length l (Nat.le_refl _)

theorem padBits_facts (bc : List Char) :
    (padBits bc).length % 8 = 0 ∧ (padBits bc).length / 8 = (bc.length + 7) / 8 := by
  unfold padBits
  split
  · next hz => constructor <;> omega
  · next hz =>
    simp only [List.length_append, List.length_replicate]
    have h8 : bc.length % 8 < 8 := Nat.mod_lt _ (by omega)
    constructor <;> omega

theorem reconcile_ok (o : Option Int) (n : Nat) (d : Int) (w : List String)
    (h : reconcile o n = .ok (d, w)) : (n : Int) ≤ d := by
  unfold reconcile at h
  cases o with
  | none => cases h
  | some d0 =>
    dsimp only at h
    split at h
    · next hgt =>
      have heq := Except.ok.inj h
      have hd : (n : Int) = d := congrArg Prod.fst heq
      omega
    · next hgt =>
      have heq := Except.ok.inj h
      have hd : d0 = d := congrArg Prod.fst heq
      omega

theorem exceptBind_ok {α β : Type} (x : Except AErr α) (f : α → Except AErr β)
    (y : β) (h : Except.bind x f = .ok y) : ∃ a, x = .ok a ∧ f a = .ok y := by
  cases x with
  | error e => cases h
  | ok a => exact ⟨a, rfl, h⟩

theorem writeImage_ok (bc : List Char) (ds : Int) (data : List Int) (file : List Nat)
    (h : writeImage bc ds data = .ok file) :
    0 ≤ ds ∧ ds < 4294967296 ∧
    (∀ b ∈ data, 0 ≤ b ∧ b ≤ 255) ∧
    file = magic ++ le32 (bc.length / 8) ++ le32 ds.toNat ++ le32 data.length ++
      (chunks8 bc).map binVal ++ data.map Int.toNat := by
  unfold writeImage at h
  obtain ⟨b1, h1, h⟩ := exceptBind_ok _ _ _ h
  obtain ⟨b2, h2, h⟩ := exceptBind_ok _ _ _ h
  obtain ⟨b3, h3, h⟩ := exceptBind_ok _ _ _ h
  obtain ⟨codeBytes, h4, h⟩ := exceptBind_ok _ _ _ h
  obtain ⟨dataBytes, h5, h⟩ := exceptBind_ok _ _ _ h
  rcases packU32_ok _ _ h1 with ⟨_, _, hb1⟩
  rcases packU32_ok _ _ h2 with ⟨hds0, hdsl, hb2⟩
  rcases packU32_ok _ _ h3 with ⟨_, _, hb3⟩
  have hcode := packCode_ok _ _ h4
  rcases packData_ok _ _ h5 with ⟨hdata, hbound⟩
  refine ⟨hds0, hdsl, hbound, ?_⟩
  have hfile : file = magic ++ b1 ++ b2 ++ b3 ++ codeBytes ++ dataBytes :=
    (Except.ok.inj h).symm
  rw [hfile, hb1, hb2, hb3, hcode, hdata]
  have e1 : (((bc.length / 8 : Nat) : Int)).toNat = bc.length / 8 := by omega
  have e3 : (((data.length : Nat) : Int)).toNat = data.length := by omega
  rw [e1, e3]

/-- Decomposition of a successful `Assembler.build`: the intermediate
stages all succeeded and the output file has the documented layout. -/
theorem buildFile_decomp (p : PState) (file : List Nat) (warns : List String)
    (h : buildFile p = .ok (file, warns)) :
    ∃ s bcF ds,
      assembleLoop p = .ok s ∧
      applyPatches s.offsets s.patches s.bytecode = .ok bcF ∧
      reconcile p.data_size p.data_section.length = .ok (ds, warns) ∧
      0 ≤ ds ∧ ds < 4294967296 ∧
      (∀ b ∈ p.data_section, 0 ≤ b ∧ b ≤ 255) ∧
      (padBits bcF).length % 8 = 0 ∧
      (padBits bcF).length / 8 = (bcF.length + 7) / 8 ∧
      ((chunks8 (padBits bcF)).map binVal).length = (bcF.length + 7) / 8 ∧
      file = magic ++ le32 ((bcF.length + 7) / 8) ++ le32 ds.toNat ++
        le32 p.data_section.length ++ (chunks8 (padBits bcF)).map binVal ++
        p.data_section.map Int.toNat := by
  unfold buildFile at h
  obtain ⟨s, hA, h⟩ := exceptBind_ok _ _ _ h
  obtain ⟨bcF, hP, h⟩ := exceptBind_ok _ _ _ h
  obtain ⟨dw, hR, h⟩ := exceptBind_ok _ _ _ h
  obtain ⟨file0, hW, h⟩ := exceptBind_ok _ _ _ h
  have hfw := Except.ok.inj h
  have hfile0 : file0 = file := congrArg Prod.fst hfw
  have hwarns : dw.2 = warns := congrArg Prod.snd hfw
  subst hfile0
  rcases writeImage_ok _ _ _ _ hW with ⟨hds0, hdsl, hbound, hfile⟩
  rcases padBits_facts bcF with ⟨hmod, hdiv⟩
  refine ⟨s, bcF, dw.1, hA, hP, ?_, hds0, hdsl, hbound, hmod, hdiv, ?_, ?_⟩
  · rw [← hwarns]
    exact hR
  · rw [List.length_map, chunks8_length]
    omega
  · rw [hfile, hdiv]

/-- C2: a source that never declares `.dataSize` parses fine with
`data_size = None`, but `Assembler.build` then evaluates
`len(data_section) > None`, which raises `TypeError` in Python 3 (and the
`"%d" % None` warning format raises `TypeError` in Python 2), so the run
crashes instead of treating the missing size as zero and succeeding. -/
theorem C2_missing_datasize_crashes :
    (analyse [".code", "hlt"]).toOption.map (fun st => st.data_size) = some none ∧
    reconcile none 0 = .error (.exn "TypeError") ∧
    mainRun [".code", "hlt"] = .crashed "TypeError" :=
  ⟨rfl, rfl, rfl⟩

/-- Modelled from the spec: the 64-bit two's-complement encoding of an
integer constant, emitted LSB first (what the spec says a `C`-argument
emits). -/
def twosComp64 (v : Int) : List Char :=
  lsbBits 64 (v % (18446744073709551616 : Int)).toNat

/-- C3 (counterexample): on the accepted literal `-1` the emitter does not
produce the 64-bit two's-complement pattern (64 one-bits); instead Python's
signed `format` leaves a `-` sign character that, after the reversal, ends
up inside the bit buffer.  And the accepted literal 2^64 emits 65
characters, not 64. -/
theorem C3_counterexample :
    pyIntBase0 "-1".toList = some (-1) ∧
    twosComp64 (-1) = List.replicate 64 '1' ∧
    assembleConstant "-1".toList = .ok ('1' :: (List.replicate 62 '0' ++ ['-'])) ∧
    (assembleConstant "-1".toList).toOption ≠ some (twosComp64 (-1)) ∧
    (assembleConstant "18446744073709551616".toList).toOption.map List.length = some 65 :=
  ⟨rfl, by decide, rfl, by decide, rfl⟩

/-- C3 (amended): for every `C`-argument whose stored string is an accepted
integer literal with a non-negative value below 2^64, the emitter emits
exactly the value's 64 bits LSB-first.  (Negative values keep a sign
character instead of wrapping, and values ≥ 2^64 emit more than 64 bits —
see the counterexample.) -/
theorem C3_amended (s : List Char) (v : Int) (hparse : pyIntBase0 s = some v)
    (h0 : 0 ≤ v) (hlt : v < 18446744073709551616) :
    assembleConstant s = .ok (lsbBits 64 v.toNat) ∧
    (lsbBits 64 v.toNat).length = 64 ∧
    decodeBits (lsbBits 64 v.toNat) = v.toNat := by
  have hstep : assembleConstant s = .ok (pyFormatBin 64 v).reverse := by
    unfold assembleConstant
    rw [hparse]
  have hvn : v.toNat < 2 ^ 64 := by norm_num; omega
  refine ⟨?_, lsbBits_length 64 v.toNat, decodeBits_lsbBits_of_lt 64 v.toNat hvn⟩
  rw [hstep]
  unfold pyFormatBin
  rw [if_pos h0]
  rw [natBinPad_reverse 64 v.toNat (by omega) hvn]

/-- C3 (witness): the amended statement at the literal `0xFF`. -/
theorem C3_witness :
    assembleConstant "0xFF".toList = .ok (lsbBits 64 (255 : Int).toNat) ∧
    (lsbBits 64 (255 : Int).toNat).length = 64 ∧
    decodeBits (lsbBits 64 (255 : Int).toNat) = (255 : Int).toNat :=
  C3_amended "0xFF".toList 255 rfl (by decide) (by decide)

/-- Modelled from the spec: the claimed 5-bit value-register form, a 0 bit
followed by the low four id bits LSB first. -/
def specRegisterValue (id : Nat) : List Char := '0' :: lsbBits 4 id

/-- C4 (counterexample): for register id 16 Python's `"{0:04b}"` pads to a
minimum width and does not truncate, so the value form emits six characters
(`0` + all five bits of 16 reversed), not the claimed five (`0` + low four
bits), and the reference form emits eight characters, not seven. -/
theorem C4_counterexample :
    assembleRegister (16, none) = .ok ['0', '0', '0', '0', '0', '1'] ∧
    specRegisterValue 16 = ['0', '0', '0', '0', '0'] ∧
    (assembleRegister (16, none)).toOption ≠ some (specRegisterValue 16) ∧
    (assembleRegister (16, none)).toOption.map List.length ≠ some 5 ∧
    (assembleRegister (16, some "byte".toList)).toOption.map List.length = some 8 :=
  ⟨rfl, by decide, by decide, by decide, rfl⟩

theorem widthBits_length (w wb : List Char) (h : widthBits w = some wb) :
    wb.length = 2 := by
  unfold widthBits at h
  split at h
  · cases h; rfl
  · split at h
    · cases h; rfl
    · split at h
      · cases h; rfl
      · split at h
        · cases h; rfl
        · cases h

/-- C4 (amended): for register ids 0..15 the value form emits exactly 5
characters (`0` then the low 4 id bits LSB-first) and each reference form
emits exactly 7 characters (`1`, the reversed 2-bit width code, then the 4
id bits LSB-first); id 16 instead emits 6 and 8 characters respectively
(its full 5-bit binary, reversed, with no masking). -/
theorem C4_amended (id : Nat) (hid : id ≤ 15) :
    assembleRegister (id, none) = .ok ('0' :: lsbBits 4 id) ∧
    ('0' :: lsbBits 4 id).length = 5 ∧
    (∀ w wb, widthBits w = some wb →
      assembleRegister (id, some w) = .ok ('1' :: (wb.reverse ++ lsbBits 4 id)) ∧
      ('1' :: (wb.reverse ++ lsbBits 4 id)).length = 7) ∧
    (assembleRegister (16, none)).toOption.map List.length = some 6 ∧
    (assembleRegister (16, some "qword".toList)).toOption.map List.length = some 8 := by
  have hpad : (natBinPad 4 id).reverse = lsbBits 4 id :=
    natBinPad_reverse 4 id (by omega) (by norm_num; omega)
  refine ⟨?_, ?_, ?_, rfl, rfl⟩
  · show Except.ok ('0' :: (natBinPad 4 id).reverse) = _
    rw [hpad]
  · rw [List.length_cons, lsbBits_length]
  · intro w wb hw
    constructor
    · show (match widthBits w with
        | none => Except.error (AErr.exn "KeyError")
        | some wb2 => Except.ok ('1' :: (wb2.reverse ++ (natBinPad 4 id).reverse))) = _
      rw [hw, hpad]
    · simp [lsbBits_length, List.length_reverse, widthBits_length w wb hw]

/-- C4 (witness): the amended statement at id 5 with width `dword`. -/
theorem C4_witness :
    assembleRegister (5, none) = .ok ('0' :: lsbBits 4 5) ∧
    assembleRegister (5, some "dword".toList) =
      .ok ('1' :: ("10".toList.reverse ++ lsbBits 4 5)) := by
  refine ⟨(C4_amended 5 (by decide)).1, ?_⟩
  exact ((C4_amended 5 (by decide)).2.2.1 "dword".toList "10".toList rfl).1

/-- C5: the parser reads each data token with `int(entry, 16)` and rejects
only values greater than 255, so the signed token `-1` parses successfully
and puts the negative value −1 into `data_section`, violating the claimed
`0..=255` invariant; the write stage later crashes in
`struct.pack("B", -1)` with `struct.error`. -/
theorem C5_negative_data_byte :
    (analyse [".dataSize 1", ".data", "-1"]).toOption.map (fun st => st.data_section) =
      some [-1] ∧
    ¬ (0 : Int) ≤ -1 ∧
    mainRun [".dataSize 1", ".data", "-1"] = .crashed "struct.error" :=
  ⟨rfl, by decide, rfl⟩

/-- C6 (counterexample): a `.dataSize` directive with a missing operand
raises `IndexError` (from `tokens[1]`) and one with a non-decimal operand
raises `ValueError` (from `int`), neither of which is a `Parser.Error`, so
the driver crashes instead of exiting 2 with a parser message. -/
theorem C6_counterexample :
    mainRun [".dataSize"] = .crashed "IndexError" ∧
    mainRun [".dataSize x"] = .crashed "ValueError" ∧
    (¬ ∃ out f, mainRun [".dataSize"] = .finished 2 out f) := by
  refine ⟨rfl, rfl, ?_⟩
  rintro ⟨out, f, h⟩
  rw [show mainRun [".dataSize"] = .crashed "IndexError" from rfl] at h
  cases h

/-- C6 (amended): every failure the parser raises as a `Parser.Error` makes
the driver exit 2 printing `Parser error on line <N>: <msg>` with the
offending line number (unrecognized register forms and oversized data
bytes among them, as the two concrete runs show); but a `.dataSize` with a
missing or non-decimal operand raises an unhandled
`IndexError`/`ValueError` instead — see the counterexample. -/
theorem C6_amended (lines : List String) (n : Nat) (msg : String)
    (h : analyse lines = .error (n, .parseError msg)) :
    mainRun lines = .finished 2
      ["Parser error on line " ++ toString n ++ ": " ++ msg] none ∧
    mainRun [".code", "mov r0, rx"] =
      .finished 2 ["Parser error on line 2: Bad register argument type [rx]"] none ∧
    mainRun [".dataSize 0", ".data", "1FF"] =
      .finished 2 ["Parser error on line 3: Bad value in line"] none := by
  refine ⟨?_, rfl, rfl⟩
  unfold mainRun
  rw [h]

/-- C6 (witness): the amended driver behaviour at a concrete parse error
(a register argument that matches neither register pattern). -/
theorem C6_witness :
    mainRun [".code", "consoleWrite 5"] =
      .finished 2 ["Parser error on line 2: Bad register argument type [5]"] none :=
  (C6_amended [".code", "consoleWrite 5"] 2 "Bad register argument type [5]" rfl).1

/-- C7: an unknown opcode, a duplicate label (in code mode) and a register
id above 16 each raise a `Parser.Error`, and the driver turns every
`Parser.Error` into exit code 2 with the line-numbered message and no
output file (the output path is only opened inside `Assembler.build`,
which is never reached). -/
theorem C7_defects_parse_error :
    (∀ (st : PState) (name : List Char) (rest : List (List Char)),
      lookupOpcode name = none →
      parseCode st (name :: rest) =
        .error (.parseError ("Bad opcode [" ++ String.mk name ++ "]"))) ∧
    (∀ (st : PState) (t0 : List Char) (v : Nat),
      st.parse_mode = some ParseMode.code →
      lookupA st.code_labels t0.dropLast = some v →
      parseLabel st [t0] = .error (.parseError "Duplicated label")) ∧
    (∀ (s : List Char) (id : Nat), matchVal s = some id → id > 16 →
      parseRegisterArg s = .error (.parseError "Bad register argument type (too big)")) ∧
    (∀ (lines : List String) (n : Nat) (msg : String),
      analyse lines = .error (n, .parseError msg) →
      mainRun lines = .finished 2
        ["Parser error on line " ++ toString n ++ ": " ++ msg] none) := by
  refine ⟨?_, ?_, ?_, ?_⟩
  · intro st name rest hlk
    unfold parseCode
    dsimp only
    rw [hlk]
  · intro st t0 v hmode hlk
    unfold parseLabel
    dsimp only
    rw [hmode, hlk]
    rfl
  · intro s id hmv hgt
    unfold parseRegisterArg
    rw [hmv]
    dsimp only
    rw [if_pos hgt]
  · intro lines n msg h
    unfold mainRun
    rw [h]

/-- C7 (witness): the three defect kinds and the driver mapping at concrete
inputs. -/
theorem C7_witness :
    parseCode ⟨some ParseMode.code, none, [], [], [], []⟩ ["foo".toList] =
      .error (.parseError "Bad opcode [foo]") ∧
    parseLabel ⟨some ParseMode.code, none, [], [], [("x".toList, 0)], []⟩ ["x:".toList] =
      .error (.parseError "Duplicated label") ∧
    parseRegisterArg "r17".toList =
      .error (.parseError "Bad register argument type (too big)") ∧
    mainRun [".code", "foo"] =
      .finished 2 ["Parser error on line 2: Bad opcode [foo]"] none :=
  ⟨C7_defects_parse_error.1 _ "foo".toList [] rfl,
    C7_defects_parse_error.2.1 _ "x:".toList 0 rfl rfl,
    C7_defects_parse_error.2.2.1 "r17".toList 17 rfl (by decide),
    C7_defects_parse_error.2.2.2 [".code", "foo"] 2 "Bad opcode [foo]" rfl⟩

/-- C8: every successful run writes, in order, the 8 magic bytes
`ESET-VM2`, the 32-bit little-endian code byte count (the ceiling of the
emitted bit count over 8, matching the zero-padded buffer), the 32-bit
little-endian (possibly widened) data size, the 32-bit little-endian count
of data bytes, then exactly that many code bytes — each the value of 8
successive buffer bits read first-emitted-bit-as-MSB (`binVal`) — and
exactly the data bytes. -/
theorem C8_output_layout (p : PState) (file : List Nat) (warns : List String)
    (h : buildFile p = .ok (file, warns)) :
    ∃ s bcF ds,
      assembleLoop p = .ok s ∧
      applyPatches s.offsets s.patches s.bytecode = .ok bcF ∧
      reconcile p.data_size p.data_section.length = .ok (ds, warns) ∧
      0 ≤ ds ∧ ds < 4294967296 ∧
      (∀ b ∈ p.data_section, 0 ≤ b ∧ b ≤ 255) ∧
      (padBits bcF).length % 8 = 0 ∧
      (padBits bcF).length / 8 = (bcF.length + 7) / 8 ∧
      ((chunks8 (padBits bcF)).map binVal).length = (bcF.length + 7) / 8 ∧
      file = magic ++ le32 ((bcF.length + 7) / 8) ++ le32 ds.toNat ++
        le32 p.data_section.length ++ (chunks8 (padBits bcF)).map binVal ++
        p.data_section.map Int.toNat :=
  buildFile_decomp p file warns h

/-- Concrete parser output of `.dataSize 3 / .data / AA / .code / hlt`. -/
def pC8 : PState :=
  ⟨some ParseMode.code, some 3, [], [170], [], [("hlt".toList, [])]⟩

/-- C8 (witness): the layout statement on a small program with one data
byte and one instruction. -/
theorem C8_witness :
    analyse [".dataSize 3", ".data", "AA", ".code", "hlt"] = .ok pC8 ∧
    buildFile pC8 = .ok ([69, 83, 69, 84, 45, 86, 77, 50, 1, 0, 0, 0, 3, 0, 0, 0,
      1, 0, 0, 0, 176, 170], []) ∧
    ∃ (bcF : List Char) (ds : Int),
      [69, 83, 69, 84, 45, 86, 77, 50, 1, 0, 0, 0, 3, 0, 0, 0, 1, 0, 0, 0, 176, 170] =
        magic ++ le32 ((bcF.length + 7) / 8) ++ le32 ds.toNat ++
        le32 pC8.data_section.length ++ (chunks8 (padBits bcF)).map binVal ++
        pC8.data_section.map Int.toNat := by
  refine ⟨rfl, rfl, ?_⟩
  rcases C8_output_layout pC8
      [69, 83, 69, 84, 45, 86, 77, 50, 1, 0, 0, 0, 3, 0, 0, 0, 1, 0, 0, 0, 176, 170]
      [] rfl with ⟨s, bcF, ds, _, _, _, _, _, _, _, _, _, hfile⟩
  exact ⟨bcF, ds, hfile⟩

/-- C9: in the header of every file `Assembler.build` writes in full, the
32-bit data_size word (bytes 12..15) is at least the data_initial_length
word (bytes 16..19): the reconciliation step widens `data_size` to the
actual data length whenever it was smaller. -/
theorem C9_data_size_ge (p : PState) (file : List Nat) (warns : List String)
    (h : buildFile p = .ok (file, warns)) :
    ∃ ds : Int,
      (file.drop 12).take 4 = le32 ds.toNat ∧
      (file.drop 16).take 4 = le32 p.data_section.length ∧
      (p.data_section.length : Int) ≤ ds ∧
      p.data_section.length ≤ ds.toNat := by
  rcases buildFile_decomp p file warns h with
    ⟨s, bcF, ds, _, _, hR, hge0, _, _, _, _, _, hfile⟩
  have hlen12 : (magic ++ le32 ((bcF.length + 7) / 8)).length = 12 := rfl
  have hlen16 : (magic ++ le32 ((bcF.length + 7) / 8) ++ le32 ds.toNat).length = 16 := rfl
  have hd12 : file.drop 12 = le32 ds.toNat ++ (le32 p.data_section.length ++
      ((chunks8 (padBits bcF)).map binVal ++ p.data_section.map Int.toNat)) := by
    rw [hfile]
    rw [show magic ++ le32 ((bcF.length + 7) / 8) ++ le32 ds.toNat ++
        le32 p.data_section.length ++ (chunks8 (padBits bcF)).map binVal ++
        p.data_section.map Int.toNat =
      (magic ++ le32 ((bcF.length + 7) / 8)) ++ (le32 ds.toNat ++
        (le32 p.data_section.length ++ ((chunks8 (padBits bcF)).map binVal ++
          p.data_section.map Int.toNat))) from by simp [List.append_assoc]]
    exact List.drop_left' hlen12
  have hd16 : file.drop 16 = le32 p.data_section.length ++
      ((chunks8 (padBits bcF)).map binVal ++ p.data_section.map Int.toNat) := by
    rw [hfile]
    rw [show magic ++ le32 ((bcF.length + 7) / 8) ++ le32 ds.toNat ++
        le32 p.data_section.length ++ (chunks8 (padBits bcF)).map binVal ++
        p.data_section.map Int.toNat =
      (magic ++ le32 ((bcF.length + 7) / 8) ++ le32 ds.toNat) ++
        (le32 p.data_section.length ++ ((chunks8 (padBits bcF)).map binVal ++
          p.data_section.map Int.toNat)) from by simp [List.append_assoc]]
    exact List.drop_left' hlen16
  have hmono := reconcile_ok p.data_size p.data_section.length ds warns hR
  refine ⟨ds, ?_, ?_, hmono, by omega⟩
  · rw [hd12]
    exact List.take_left' rfl
  · rw [hd16]
    exact List.take_left' rfl

/-- Concrete parser output of `.dataSize 5 / .data / 01 02 / .code / ret`. -/
def pC9 : PState :=
  ⟨some ParseMode.code, some 5, [], [1, 2], [], [("ret".toList, [])]⟩

/-- C9 (witness): the header inequality on a program whose declared data
size (5) exceeds its two data bytes. -/
theorem C9_witness :
    analyse [".dataSize 5", ".data", "01 02", ".code", "ret"] = .ok pC9 ∧
    buildFile pC9 = .ok ([69, 83, 69, 84, 45, 86, 77, 50, 1, 0, 0, 0, 5, 0, 0, 0,
      2, 0, 0, 0, 208, 1, 2], []) ∧
    ∃ ds : Int,
      (([69, 83, 69, 84, 45, 86, 77, 50, 1, 0, 0, 0, 5, 0, 0, 0, 2, 0, 0, 0, 208, 1, 2] :
        List Nat).drop 12).take 4 = le32 ds.toNat ∧
      (([69, 83, 69, 84, 45, 86, 77, 50, 1, 0, 0, 0, 5, 0, 0, 0, 2, 0, 0, 0, 208, 1, 2] :
        List Nat).drop 16).take 4 = le32 pC9.data_section.length ∧
      (pC9.data_section.length : Int) ≤ ds ∧
      pC9.data_section.length ≤ ds.toNat :=
  ⟨rfl, rfl, C9_data_size_ge pC9 _ [] rfl⟩

/-- C10: a patch whose target instruction index is not in
`__offsets_list` — exactly what a label defined after the last instruction
produces when referenced — makes `__apply_patches` raise `IndexError`,
an exception `main` does not catch, so the run is reported neither as a
parse error (exit 2) nor as an assembler error (exit 3).  The program
`.code / jump end / end:` parses successfully (label `end` maps to
instruction index 1 while only 1 instruction exists) and crashes exactly
this way. -/
theorem C10_label_after_last_instruction (offsets : List Nat)
    (patches : List (Nat × Nat)) (bc : List Char) (pos j : Nat)
    (hmem : (pos, j) ∈ patches) (hj : offsets.length ≤ j) :
    applyPatches offsets patches bc = .error (.exn "IndexError") ∧
    ((analyse [".code", "jump end", "end:"]).toOption.map
      (fun st => (st.code_labels, st.code_section.length))) =
      some ([("end".toList, 1)], 1) ∧
    mainRun [".code", "jump end", "end:"] = .crashed "IndexError" := by
  refine ⟨?_, rfl, rfl⟩
  induction patches generalizing bc with
  | nil => cases hmem
  | cons hd rest ih =>
    rcases hd with ⟨p0, j0⟩
    show (match offsets.get? j0 with
      | none => Except.error (AErr.exn "IndexError")
      | some a =>
        match pyOverwrite bc p0 ((natBinPad 32 a).reverse) with
        | Except.error e => Except.error e
        | Except.ok bc2 => applyPatches offsets rest bc2) = _
    rcases List.mem_cons.mp hmem with hhd | htl
    · have hp : pos = p0 := congrArg Prod.fst hhd
      have hjj : j = j0 := congrArg Prod.snd hhd
      subst hp hjj
      rw [List.get?_eq_none.mpr hj]
    · cases hget : offsets.get? j0 with
      | none => rfl
      | some a =>
        dsimp only
        cases hover : pyOverwrite bc p0 ((natBinPad 32 a).reverse) with
        | error e =>
          rw [pyOverwrite_error_name _ _ _ _ hover]
        | ok bc2 =>
          dsimp only
          exact ih bc2 htl

/-- C10 (witness): the general lemma at the concrete patch list the
program `.code / jump end / end:` produces (one patch at bit 5 targeting
instruction index 1, with a single recorded offset). -/
theorem C10_witness :
    applyPatches [0] [(5, 1)] (List.replicate 37 '0') = .error (.exn "IndexError") ∧
    ((analyse [".code", "jump end", "end:"]).toOption.map
      (fun st => (st.code_labels, st.code_section.length))) =
      some ([("end".toList, 1)], 1) ∧
    mainRun [".code", "jump end", "end:"] = .crashed "IndexError" :=
  C10_label_after_last_instruction [0] [(5, 1)] (List.replicate 37 '0') 5 1
    (by decide) (by decide)

end EsetVM2
